import Mathlib

/-!
Verification development for the `SkillManager` component
(`src/skill_manager.py`): resolution, parsing and merge engine for named
"skill" records stored in two directory scopes (workspace and official).

Strings are embedded as `List Char` so that the character-level behaviour of
the Python code (regular-expression matching, `str.strip`, f-string
concatenation) can be modelled and reasoned about directly.

Fidelity notes on outside libraries used by the source:
* The frontmatter regular expression
  `^---\s*\n(.*?)\n---\s*(?:\n(.*))?$` (with `re.DOTALL`) is embedded as a
  bespoke backtracking matcher (`parseFM` below) that follows Python's
  leftmost/greedy/lazy priorities for exactly this pattern.
* `yaml.dump` / `yaml.safe_load` are modelled on the line-shaped fragment
  the manager exchanges: flat string-valued mappings, one `key: value` line
  per pair, values plain or double-quoted-with-escapes (`yamlDump` /
  `yamlLoad`).  Loading distinguishes a mapping, a non-mapping document (a
  bare scalar or sequence, returned by `safe_load` without error), and
  `none` for blocks on which `safe_load` raises `yaml.YAMLError` — a second
  `: ` inside a plain value (`a: b: c`), a plain line inside a block
  mapping (`a: b` then `badline`), or a malformed quoted scalar.
* `json.load` is modelled by storing `.json` files directly as parsed
  attribute lists; the `Skill` record schema (collaborator type, spec
  section 6) is modelled from the spec as a string-keyed attribute map with
  constructor, get/set and contains-field semantics.
-/

/-- Characters are the Python `str` code points; a Python string is a list. -/
abbrev Str := List Char

/-- Shorthand turning a Lean string literal into the `List Char` embedding. -/
def S (s : String) : Str := s.toList

/-- Python regex `\s` / `str.strip` whitespace on the ASCII range. -/
def isPySpace (c : Char) : Bool :=
  c = ' ' || c = '\t' || c = '\n' || c = '\r' || c = '\x0b' || c = '\x0c'

/-- Python `str.strip()`: drop whitespace from both ends. -/
def pyStrip (l : Str) : Str :=
  ((l.dropWhile isPySpace).reverse.dropWhile isPySpace).reverse

/-- Length of the maximal leading whitespace run (what a greedy `\s*` scans). -/
def wsRunLen (l : Str) : Nat := (l.takeWhile isPySpace).length

/-- Index of the last newline in a list, if any. -/
def lastNlIdx : Str → Option Nat
  | [] => none
  | c :: rest =>
    match lastNlIdx rest with
    | some k => some (k + 1)
    | none => if c = '\n' then some 0 else none

/-- Indices of newlines in a list, largest first (greedy backtrack order). -/
def nlPosDesc (l : Str) : List Nat :=
  ((List.range l.length).filter (fun i => l.get? i = some '\n')).reverse

/-- Matcher for the regex tail `\s*(?:\n(.*))?$` under Python priorities:
the greedy `\s*` prefers the longest run, the optional group prefers to be
present, `(.*)` is greedy and `$` accepts end of input.  Returns the value
of capture group 2 (`some (some g2)` when the optional group matched,
`some none` when it was skipped, `none` when the tail cannot match). -/
def tail2 (t : Str) : Option (Option Str) :=
  let r := wsRunLen t
  if t.drop r = [] then some none
  else
    match lastNlIdx (t.take r) with
    | some j => some (some (t.drop (j + 1)))
    | none => none

/-- Matcher for `(.*?)\n---\s*(?:\n(.*))?$`: the lazy `(.*?)` tries the
earliest closing `\n---` whose tail also matches, scanning left to right. -/
def findClose : Str → Option (Str × Option Str)
  | [] => none
  | c :: rest =>
    match (if c = '\n' ∧ rest.take 3 = ['-', '-', '-'] then tail2 (rest.drop 3) else none) with
    | some g2 => some ([], g2)
    | none => (findClose rest).map (fun p => (c :: p.1, p.2))

/-- Backtracking over the opening `\s*\n`: candidate newline positions are
tried longest-run-first; the first one whose continuation matches wins. -/
def tryOpen (cs : Str) : List Nat → Option (Str × Option Str)
  | [] => none
  | j :: js =>
    match findClose (cs.drop (j + 1)) with
    | some p => some p
    | none => tryOpen cs js

/-- Matcher for `\s*\n(.*?)\n---\s*(?:\n(.*))?$` applied after the opening
literal `---` has been consumed. -/
def afterDashes (cs : Str) : Option (Str × Option Str) :=
  tryOpen cs (nlPosDesc (cs.take (wsRunLen cs)))

/-- Full model of `re.match(r'^---\s*\n(.*?)\n---\s*(?:\n(.*))?$', content,
re.DOTALL)` followed by the source's `(match.group(2) or '').strip()`:
returns `(group 1, stripped body)` on a match. -/
def parseFM (content : Str) : Option (Str × Str) :=
  match content with
  | '-' :: '-' :: '-' :: rest =>
    (afterDashes rest).map (fun p => (p.1, pyStrip (p.2.getD [])))
  | _ => none

/-- Split a list at newline characters (model of `str.split` on a single
newline, used to read the dumped metadata block line by line). -/
def splitNl : Str → List Str
  | [] => [[]]
  | c :: rest =>
    if c = '\n' then [] :: splitNl rest
    else
      match splitNl rest with
      | [] => [[c]]
      | l :: ls => (c :: l) :: ls

/-- Split one metadata line at the first `: ` into key and value. -/
def splitColon : Str → Option (Str × Str)
  | [] => none
  | c :: rest =>
    if c = ':' ∧ rest.take 1 = [' '] then some ([], rest.drop 1)
    else (splitColon rest).map (fun p => (c :: p.1, p.2))

/-- True when a `: ` separator occurs somewhere in the line — the shape that
commits the YAML scanner to a mapping entry. -/
def hasColonSpace : Str → Bool
  | [] => false
  | c :: rest => (c = ':' && rest.take 1 = [' ']) || hasColonSpace rest

/-- Inverse of the double-quoted escapes the dumper emits. -/
def unescapeChar (c : Char) : Option Char :=
  if c = 'n' then some '\n'
  else if c = '"' then some '"'
  else if c = '\\' then some '\\'
  else none

/-- Double-quoted-style escaping of a scalar: backslash, double quote and
newline are escaped, everything else is kept. -/
def escapeChars : Str → Str
  | [] => []
  | c :: rest =>
    if c = '\\' then '\\' :: '\\' :: escapeChars rest
    else if c = '"' then '\\' :: '"' :: escapeChars rest
    else if c = '\n' then '\\' :: 'n' :: escapeChars rest
    else c :: escapeChars rest

/-- Read a double-quoted scalar after its opening quote: escapes are
decoded, the closing quote must end the token (trailing characters after it
make `yaml.safe_load` raise, as does an unterminated or badly escaped
scalar). -/
def parseQuoted : Str → Option Str
  | [] => none
  | c :: rest =>
    if c = '"' then (if rest = [] then some [] else none)
    else if c = '\\' then
      match rest with
      | [] => none
      | d :: rest2 =>
        match unescapeChar d with
        | none => none
        | some e => (parseQuoted rest2).map (fun w => e :: w)
    else (parseQuoted rest).map (fun w => c :: w)

/-- Read one value token: a leading double quote starts a quoted scalar;
otherwise the value is a plain scalar, and a further `: ` inside it is the
real scanner's `mapping values are not allowed here` error (as in
`yaml.safe_load "a: b: c"`). -/
def parseVal (s : Str) : Option Str :=
  if s.take 1 = ['"'] then parseQuoted (s.drop 1)
  else if hasColonSpace s then none
  else some s

/-- Values the dumper cannot emit as plain scalars in this model: those
containing a newline, a double quote, a backslash, or a `: ` separator (the
real emitter quotes these so that `safe_load` inverts `dump`). -/
def needsQuote (v : Str) : Bool :=
  v.any (fun c => c = '\n' || c = '"' || c = '\\') || hasColonSpace v

/-- Dump one value: double-quoted with escapes when needed, plain
otherwise. -/
def dumpVal (v : Str) : Str :=
  if needsQuote v then '"' :: (escapeChars v ++ ['"']) else v

/-- Outcome of loading a metadata block that did not raise: a mapping, or a
non-mapping document (a bare scalar or sequence, which `safe_load` returns
without error). -/
inductive YamlDoc where
  | mapping (kvs : List (Str × Str))
  | nonMapping
deriving DecidableEq

/-- Parse the lines of a block that contains at least one mapping line.
Blank and comment lines are skipped (the real parser ignores them); a
remaining line without `: ` aborts the load, modelling the scanner's
`expected <block end>` / `mapping values are not allowed here` errors for a
plain line inside a block mapping, and a bad value token aborts likewise.
Indentation-based continuations, empty-valued `key:` lines, anchors and
flow collections are outside the modelled fragment. -/
def parseLines : List Str → Option (List (Str × Str))
  | [] => some []
  | l :: rest =>
    if pyStrip l = [] ∨ l.take 1 = ['#'] then parseLines rest
    else
      match splitColon l with
      | none => none
      | some kv =>
        match parseVal kv.2 with
        | none => none
        | some v =>
          match parseLines rest with
          | none => none
          | some kvs => some ((kv.1, v) :: kvs)

/-- Model of `yaml.safe_load` on the line-shaped fragment.  An empty or
whitespace-only block is `None`, which the source's `or {}` turns into the
empty mapping; a block none of whose lines has a `: ` separator is a
non-mapping document (e.g. `safe_load "badline"` is the string `badline`,
with no error); otherwise the block is a mapping and `none` models
`yaml.YAMLError` being raised while reading it. -/
def yamlLoad (y : Str) : Option YamlDoc :=
  if pyStrip y = [] then some (YamlDoc.mapping [])
  else if (splitNl y).all (fun l => !(hasColonSpace l)) then some YamlDoc.nonMapping
  else (parseLines (splitNl y)).map YamlDoc.mapping

/-- Model of `yaml.dump(..., sort_keys=False)` on the same fragment:
insertion order is preserved and each pair becomes a `key: value` line, with
the value double-quoted and escaped when it cannot stand as a plain scalar
(the real emitter picks among quoting/folding styles; all of them are
inverted by `safe_load`, and the model uses the double-quoted style
throughout). -/
def yamlDump (kvs : List (Str × Str)) : Str :=
  (kvs.map (fun kv => kv.1 ++ ':' :: ' ' :: dumpVal kv.2 ++ ['\n'])).flatten

/-- Embedding of `SkillManager._parse_yaml_frontmatter`: on a regex match the
block is loaded; a mapping is returned with the parsed body, and a load
error falls back to `({}, content)` with a warning.  For a non-mapping
document the Python function returns the loaded object itself (a `str` or
`list`) with the parsed body and no warning; the model, which types
metadata as a mapping, carries the empty mapping there — the body (all that
generation reads) and the name-inference fallback are exact, while the
`AttributeError` this object later causes inside `_load_skill_from_md`
(caught by the loaders) is outside the modelled fragment. -/
def parse_yaml_frontmatter (content : Str) : List (Str × Str) × Str :=
  match parseFM content with
  | some (y, body) =>
    match yamlLoad y with
    | some (YamlDoc.mapping fm) => (fm, body)
    | some YamlDoc.nonMapping => ([], body)
    | none => ([], content)
  | none => ([], content)

/-- True when `_parse_yaml_frontmatter` takes the `yaml.YAMLError` branch and
logs its warning. -/
def parseWarns (content : Str) : Bool :=
  match parseFM content with
  | some (y, _) => (yamlLoad y).isNone
  | none => false

/-- Skill records: the collaborating `Skill` schema only needs constructor, field
get/set and contains-field semantics (spec section 6), so it is modelled from
the spec as a string-keyed attribute list with string values. -/
abbrev Skill := List (Str × Str)

/-- Dictionary lookup (first matching key). -/
def findA {α : Type} : List (Str × α) → Str → Option α
  | [], _ => none
  | (k, v) :: rest, key => if k = key then some v else findA rest key

/-- Dictionary update: replace the value of an existing key in place, or
append a new binding at the end (Python `dict` assignment). -/
def setA {α : Type} : List (Str × α) → Str → α → List (Str × α)
  | [], key, v => [(key, v)]
  | (k, w) :: rest, key, v =>
    if k = key then (k, v) :: rest else (k, w) :: setA rest key v

/-- Dictionary deletion (Python `del d[key]`; keys are unique in a dict, so
removing every binding of the key is extensionally the same). -/
def eraseA {α : Type} (l : List (Str × α)) (key : Str) : List (Str × α) :=
  l.filter (fun p => p.1 ≠ key)

/-- Lookup with a default, Python `d.get(key, default)`. -/
def getA (l : List (Str × Str)) (key : Str) (dflt : Str) : Str :=
  (findA l key).getD dflt

/-- The fixed enumeration of recognized optional attributes, in source
order (`optional_fields` in `_load_skill_from_md` / `_generate_skill_md`). -/
def optionalFields : List Str :=
  [S "displayName", S "author", S "version", S "license", S "repository",
   S "category", S "subcategory", S "type", S "difficulty", S "audience",
   S "claudeVersion", S "platform", S "languages",
   S "permissions", S "inputs", S "outputs", S "examples", S "dependencies"]

/-- Embedding of `SkillManager._infer_skill_name_from_md` applied to the
file's text: prefer a non-blank stripped `name` attribute of the parsed
metadata block, otherwise return the fallback name. -/
def infer_skill_name_from_md (text : Str) (fallback : Str) : Str :=
  match findA (parse_yaml_frontmatter text).1 (S "name") with
  | some n => if pyStrip n ≠ [] then pyStrip n else fallback
  | none => fallback

/-- Embedding of `SkillManager._load_skill_from_md`: build the record from
the parsed metadata block (name and description defaulted), keep the full
original text as `content` and the body as `instructions`, then copy every
recognized optional attribute present in the block. -/
def load_skill_from_md (text : Str) (skill_name : Str) : Skill :=
  let fm := (parse_yaml_frontmatter text).1
  let body := (parse_yaml_frontmatter text).2
  let base : Skill :=
    [(S "name", getA fm (S "name") skill_name),
     (S "description", getA fm (S "description") []),
     (S "content", text),
     (S "instructions", body)]
  optionalFields.foldl
    (fun sk f =>
      match findA fm f with
      | some v => setA sk f v
      | none => sk)
    base

/-- Embedding of `SkillManager._load_skill_from_json`: the parsed document's
attributes become the record; a missing `name` falls back to the file stem
when that is non-empty (appended like a Python dict assignment). -/
def load_skill_from_json (fields : List (Str × Str)) (skill_name : Str) : Skill :=
  if findA fields (S "name") = none ∧ skill_name ≠ [] then
    setA fields (S "name") skill_name
  else fields

/-- A top-level file of a skills directory: either a structured-text file
`<stem>.md` with raw text, or a fully-structured file `<stem>.json` whose
parsed document is stored directly (see the fidelity notes above). -/
inductive Entry
  | mdFile (stem : Str) (text : Str)
  | jsonFile (stem : Str) (fields : List (Str × Str))
deriving DecidableEq

/-- A skills directory: top-level files in their natural filesystem
enumeration order, plus the nested `SKILL.md` manifests in `rglob` order as
`(parent directory name, text)` pairs.  Directories are auto-created on
initialization, so existence is not modelled separately. -/
structure Dir where
  entries : List Entry
  manifests : List (Str × Str)
deriving DecidableEq

/-- Text of the top-level `<name>.md` file, if present. -/
def findMd : List Entry → Str → Option Str
  | [], _ => none
  | Entry.mdFile stem text :: rest, name =>
    if stem = name then some text else findMd rest name
  | Entry.jsonFile _ _ :: rest, name => findMd rest name

/-- Parsed document of the top-level `<name>.json` file, if present. -/
def findJson : List Entry → Str → Option (List (Str × Str))
  | [], _ => none
  | Entry.jsonFile stem fields :: rest, name =>
    if stem = name then some fields else findJson rest name
  | Entry.mdFile _ _ :: rest, name => findJson rest name

/-- Embedding of `SkillManager._load_from_skill_manifest`: walk the nested
`SKILL.md` files in order and return the first whose inferred name (explicit
metadata name, else parent directory name) equals the requested name. -/
def load_from_skill_manifest : List (Str × Str) → Str → Option Skill
  | [], _ => none
  | (parent, text) :: rest, name =>
    let inferred := infer_skill_name_from_md text parent
    if inferred = name then some (load_skill_from_md text inferred)
    else load_from_skill_manifest rest name

/-- Embedding of `SkillManager._load_from_directory`: a missing directory
yields nothing; otherwise try `<name>.md`, then `<name>.json`, then the
manifest convention. -/
def load_from_directory (skill_name : Str) : Option Dir → Option Skill
  | none => none
  | some d =>
    match findMd d.entries skill_name with
    | some text => some (load_skill_from_md text skill_name)
    | none =>
      match findJson d.entries skill_name with
      | some fields => some (load_skill_from_json fields skill_name)
      | none => load_from_skill_manifest d.manifests skill_name

/-- State of a `SkillManager`: whether a workspace root was configured, the
two directories, and the memoization cache keyed by the literal string
`f"{source}:{skill_name}"`. -/
structure Manager where
  hasWorkspace : Bool
  wsDir : Dir
  offDir : Dir
  cache : List (Str × Skill)
deriving DecidableEq

/-- The `self.skills_dir` attribute: `None` when no workspace root is set. -/
def wsDirOpt (m : Manager) : Option Dir :=
  if m.hasWorkspace then some m.wsDir else none

/-- Embedding of `SkillManager.load_skill`: check the cache, then search the
workspace scope when the selector allows it, then the official scope as a
fallback, caching any hit under the `source:name` key. -/
def load_skill (m : Manager) (skill_name source : Str) : Option Skill × Manager :=
  match findA m.cache (source ++ ':' :: skill_name) with
  | some sk => (some sk, m)
  | none =>
    match (if source = S "auto" ∨ source = S "workspace" then
        load_from_directory skill_name (wsDirOpt m)
      else none) with
    | some sk =>
      (some sk, { m with cache := setA m.cache (source ++ ':' :: skill_name) sk })
    | none =>
      match (if source = S "auto" ∨ source = S "official" then
          load_from_directory skill_name (some m.offDir)
        else none) with
      | some sk =>
        (some sk, { m with cache := setA m.cache (source ++ ':' :: skill_name) sk })
      | none => (none, m)

/-- Reserved filename stems excluded by the locator (compared upper-cased). -/
def excludedNames : List Str :=
  [S "README", S "CHANGELOG", S "LICENSE", S "CONTRIBUTING"]

/-- Python `str.upper()` on the embedded strings. -/
def upperStr (l : Str) : Str := l.map Char.toUpper

/-- Embedding of `SkillManager._iter_skill_files`: top-level `*.md` files
(excluding reserved stems and the literal `SKILL.md`), then top-level
`*.json` files (excluding reserved stems), then every nested `SKILL.md`
manifest; each candidate carries its fallback name (file stem, or parent
directory name for manifests). -/
def iter_skill_files (d : Dir) : List (Entry × Str) :=
  (d.entries.filterMap (fun e =>
    match e with
    | Entry.mdFile stem text =>
      if upperStr stem ∈ excludedNames ∨ stem = S "SKILL" then none
      else some (Entry.mdFile stem text, stem)
    | Entry.jsonFile _ _ => none)) ++
  (d.entries.filterMap (fun e =>
    match e with
    | Entry.jsonFile stem fields =>
      if upperStr stem ∈ excludedNames then none
      else some (Entry.jsonFile stem fields, stem)
    | Entry.mdFile _ _ => none)) ++
  d.manifests.map (fun pm => (Entry.mdFile (S "SKILL") pm.2, pm.1))

/-- Embedding of `SkillManager._load_skill_from_path`: dispatch on the file
suffix; structured-text files get their name inferred first. -/
def load_skill_from_path (e : Entry) (fallback : Str) : Option Skill :=
  match e with
  | Entry.mdFile _ text =>
    some (load_skill_from_md text (infer_skill_name_from_md text fallback))
  | Entry.jsonFile _ fields => some (load_skill_from_json fields fallback)

/-- The `name` attribute of a record, as read by `skill['name']` (records
produced by the loaders always carry it). -/
def skillName (sk : Skill) : Str := (findA sk (S "name")).getD []

/-- Loop body of `SkillManager._load_all_from_directory`: accumulate parsed
records, skipping load failures, records without a usable name, and names
already seen in this directory. -/
def loadAllAux : List (Entry × Str) → List Str → List Skill
  | [], _ => []
  | (e, fb) :: rest, seen =>
    match load_skill_from_path e fb with
    | none => loadAllAux rest seen
    | some sk =>
      match findA sk (S "name") with
      | none => loadAllAux rest seen
      | some nm =>
        if nm = [] ∨ nm ∈ seen then loadAllAux rest seen
        else sk :: loadAllAux rest (nm :: seen)

/-- Embedding of `SkillManager._load_all_from_directory`. -/
def load_all_from_directory (d : Dir) : List Skill :=
  loadAllAux (iter_skill_files d) []

/-- Official-scope merge loop of `SkillManager.load_all_skills`: append each
official record whose name was not captured yet, recording its name. -/
def mergeOff : List Skill → List Str → List Skill
  | [], _ => []
  | sk :: rest, names =>
    if skillName sk ∈ names then mergeOff rest names
    else sk :: mergeOff rest (skillName sk :: names)

/-- Embedding of `SkillManager.load_all_skills`: workspace records first
(when the selector and configuration allow), then official records
de-duplicated against the captured workspace names. -/
def wsLoadPart (m : Manager) (source : Str) : List Skill :=
  if (source = S "auto" ∨ source = S "all" ∨ source = S "workspace") ∧ m.hasWorkspace then
    load_all_from_directory m.wsDir
  else []

/-- Embedding of `SkillManager.load_all_skills`, continued: the workspace
records followed by the surviving official records. -/
def load_all_skills (m : Manager) (source : Str) : List Skill :=
  if source = S "auto" ∨ source = S "all" ∨ source = S "official" then
    wsLoadPart m source ++
      mergeOff (load_all_from_directory m.offDir) ((wsLoadPart m source).map skillName)
  else wsLoadPart m source

/-- Embedding of `SkillManager._generate_skill_md`: rebuild the metadata
block from `name`, `description` and the recognized optional attributes in
enumeration order, then emit delimiter, blank line and the body (preferring
`instructions`, else the body re-extracted from `content`). -/
def genMeta (sk : Skill) : List (Str × Str) :=
  (S "name", getA sk (S "name") []) ::
  (S "description", getA sk (S "description") []) ::
  optionalFields.filterMap (fun f => (findA sk f).map (fun v => (f, v)))

/-- Body selected by `_generate_skill_md`: `instructions` when non-empty,
else the body re-extracted from `content` when that attribute exists. -/
def genBody (sk : Skill) : Str :=
  if getA sk (S "instructions") [] = [] ∧ (findA sk (S "content")).isSome then
    (parse_yaml_frontmatter (getA sk (S "content") [])).2
  else getA sk (S "instructions") []

/-- Embedding of `SkillManager._generate_skill_md`, continued: delimiter,
dumped metadata, delimiter, blank line, body. -/
def generate_skill_md (sk : Skill) : Str :=
  S "---\n" ++ yamlDump (genMeta sk) ++ S "---\n\n" ++ genBody sk

/-- Update-or-create of a top-level file by `file_path.write_text` /
`json.dump`: replace the content of an existing file with the same stem and
suffix, otherwise the new file appears at the end of the enumeration. -/
def upsertEntry (es : List Entry) (e : Entry) : List Entry :=
  match e with
  | Entry.mdFile stem text =>
    if (findMd es stem).isSome then
      es.map (fun o =>
        match o with
        | Entry.mdFile st _ => if st = stem then Entry.mdFile st text else o
        | _ => o)
    else es ++ [Entry.mdFile stem text]
  | Entry.jsonFile stem fields =>
    if (findJson es stem).isSome then
      es.map (fun o =>
        match o with
        | Entry.jsonFile st _ => if st = stem then Entry.jsonFile st fields else o
        | _ => o)
    else es ++ [Entry.jsonFile stem fields]

/-- Result of a successful save: which scope's directory received the file,
and the written file's stem and suffix. -/
structure SavedPath where
  official : Bool
  stem : Str
  mdSuffix : Bool
deriving DecidableEq

/-- Apply an entry update to the directory a save targets. -/
def putEntry (m : Manager) (official : Bool) (e : Entry) : Manager :=
  if official then { m with offDir := { m.offDir with entries := upsertEntry m.offDir.entries e } }
  else { m with wsDir := { m.wsDir with entries := upsertEntry m.wsDir.entries e } }

/-- Embedding of `SkillManager.save_skill`: resolve the target directory
(configuration error when the workspace root is unset), write the record in
the requested format (unsupported formats are an error), then update the
cache entry for `target:name`.  A record without a `name` attribute raises
`KeyError` inside the guarded block, which the source catches and turns into
the same failure indicator with no file written and no cache update. -/
def save_skill (m : Manager) (sk : Skill) (format target : Str) :
    Option SavedPath × Manager :=
  if ¬ target = S "official" ∧ ¬ m.hasWorkspace then (none, m)
  else
    match findA sk (S "name") with
    | none => (none, m)
    | some nm =>
      if format = S "md" then
        (some ⟨target = S "official", nm, true⟩,
         { putEntry m (target = S "official") (Entry.mdFile nm (generate_skill_md sk)) with
           cache := setA m.cache (target ++ ':' :: nm) sk })
      else if format = S "json" then
        (some ⟨target = S "official", nm, false⟩,
         { putEntry m (target = S "official") (Entry.jsonFile nm sk) with
           cache := setA m.cache (target ++ ':' :: nm) sk })
      else (none, m)

/-- True when a top-level `<name>.md` exists. -/
def hasTopMd (d : Dir) (name : Str) : Bool := (findMd d.entries name).isSome

/-- True when a top-level `<name>.json` exists. -/
def hasTopJson (d : Dir) (name : Str) : Bool := (findJson d.entries name).isSome

/-- Keep predicate of the deletion loop: files whose stem is the deleted
name are unlinked whatever their suffix. -/
def keepEntry (name : Str) (e : Entry) : Bool :=
  match e with
  | Entry.mdFile stem _ => stem ≠ name
  | Entry.jsonFile stem _ => stem ≠ name

/-- Remove the top-level `<name>.md` and `<name>.json` files (`unlink`). -/
def removeTop (d : Dir) (name : Str) : Dir :=
  { d with entries := d.entries.filter (keepEntry name) }

/-- Embedding of `SkillManager.delete_skill`: pick the target directory
(official for the literal `"official"`, the workspace directory otherwise,
failing when it is unconfigured), unlink both encoded files when present,
drop the `target:name` cache entry, and report whether a file was removed. -/
def delete_skill (m : Manager) (skill_name target : Str) : Bool × Manager :=
  if target = S "official" then
    (hasTopMd m.offDir skill_name || hasTopJson m.offDir skill_name,
     { m with offDir := removeTop m.offDir skill_name,
              cache := eraseA m.cache (target ++ ':' :: skill_name) })
  else if m.hasWorkspace then
    (hasTopMd m.wsDir skill_name || hasTopJson m.wsDir skill_name,
     { m with wsDir := removeTop m.wsDir skill_name,
              cache := eraseA m.cache (target ++ ':' :: skill_name) })
  else (false, m)

/-- Name under which the locator lists a candidate file: inferred name for
structured-text files, fallback stem for fully-structured files. -/
def candidateName : Entry × Str → Str
  | (Entry.mdFile _ text, fb) => infer_skill_name_from_md text fb
  | (Entry.jsonFile _ _, fb) => fb

/-- The names of a directory's candidates before de-duplication. -/
def rawNames (d : Dir) : List Str := (iter_skill_files d).map candidateName

/-- First-occurrence de-duplication against an accumulator, modelling
accumulation into a Python `set` (only cardinality and membership of the
result are relied upon). -/
def dedupFirstAux : List Str → List Str → List Str
  | [], _ => []
  | x :: rest, seen =>
    if x ∈ seen then dedupFirstAux rest seen
    else x :: dedupFirstAux rest (x :: seen)

/-- De-duplicate a name list, keeping first occurrences. -/
def dedupFirst (l : List Str) : List Str := dedupFirstAux l []

/-- Embedding of `SkillManager._list_from_directory`: the set of candidate
names of one directory. -/
def list_from_directory (d : Dir) : List Str := dedupFirst (rawNames d)

/-- The statistics record assembled by `get_stats` (counts only; the byte
sizes aggregated from `stat()` are outside the filesystem model). -/
structure Stats where
  total_skills : Nat
  workspace_skills : Nat
  official_skills : Nat
  cached_skills : Nat
deriving DecidableEq

/-- Embedding of `SkillManager.get_stats`: per-scope distinct name counts,
the cache size, and a total that is de-duplicated across both scopes only
for the `"all"` selector and is otherwise the plain sum. -/
def wsCount (m : Manager) : Nat :=
  if m.hasWorkspace then (list_from_directory m.wsDir).length else 0

/-- Embedding of `SkillManager.get_stats`, continued: the assembled record. -/
def get_stats (m : Manager) (source : Str) : Stats :=
  { total_skills :=
      if source = S "all" then
        (dedupFirst ((if m.hasWorkspace then list_from_directory m.wsDir else []) ++
          list_from_directory m.offDir)).length
      else wsCount m + (list_from_directory m.offDir).length,
    workspace_skills := wsCount m,
    official_skills := (list_from_directory m.offDir).length,
    cached_skills := m.cache.length }

/-! ### Dictionary lemmas -/

theorem findA_setA_self {α : Type} (l : List (Str × α)) (k : Str) (v : α) :
    findA (setA l k v) k = some v := by
  induction l with
  | nil => simp [setA, findA]
  | cons p rest ih =>
    obtain ⟨k1, v1⟩ := p
    by_cases h : k1 = k
    · simp [setA, h, findA]
    · simp [setA, h, findA, ih]

theorem findA_setA_other {α : Type} (l : List (Str × α)) (k k2 : Str) (v : α)
    (h : k2 ≠ k) : findA (setA l k v) k2 = findA l k2 := by
  induction l with
  | nil => simp [setA, findA, Ne.symm h]
  | cons p rest ih =>
    obtain ⟨k1, v1⟩ := p
    by_cases h1 : k1 = k
    · subst h1
      simp [setA, findA, Ne.symm h]
    · simp [setA, h1, findA, ih]

theorem findA_eraseA_self {α : Type} (l : List (Str × α)) (k : Str) :
    findA (eraseA l k) k = none := by
  induction l with
  | nil => rfl
  | cons p rest ih =>
    obtain ⟨k1, v1⟩ := p
    by_cases h : k1 = k
    · simpa [eraseA, List.filter_cons, h] using ih
    · simpa [eraseA, List.filter_cons, h, findA] using ih

theorem findA_eraseA_other {α : Type} (l : List (Str × α)) (k k2 : Str)
    (h : k2 ≠ k) : findA (eraseA l k) k2 = findA l k2 := by
  induction l with
  | nil => rfl
  | cons p rest ih =>
    obtain ⟨k1, v1⟩ := p
    by_cases h1 : k1 = k
    · subst h1
      simpa [eraseA, List.filter_cons, findA, Ne.symm h] using ih
    · by_cases h2 : k1 = k2
      · simp [eraseA, List.filter_cons, h1, findA, h2, h]
      · simpa [eraseA, List.filter_cons, h1, findA, h2] using ih

theorem findA_fold_opt (fs : List Str) (fm : List (Str × Str)) (sk : Skill)
    (k : Str) (h : k ∉ fs) :
    findA (fs.foldl (fun sk2 f =>
      match findA fm f with
      | some v => setA sk2 f v
      | none => sk2) sk) k = findA sk k := by
  induction fs generalizing sk with
  | nil => rfl
  | cons f rest ih =>
    have hk : k ≠ f := fun hh => h (hh ▸ List.mem_cons_self f rest)
    have hrest : k ∉ rest := fun hh => h (List.mem_cons_of_mem f hh)
    rw [List.foldl_cons]
    cases hfm : findA fm f with
    | none => exact ih sk hrest
    | some v => exact (ih (setA sk f v) hrest).trans (findA_setA_other sk f k v hk)

/-! ### Deletion lemmas -/

theorem findMd_filter_keep (es : List Entry) (n : Str) :
    findMd (es.filter (keepEntry n)) n = none := by
  induction es with
  | nil => rfl
  | cons e rest ih =>
    cases e with
    | mdFile stem text =>
      by_cases h : stem = n
      · simpa [List.filter_cons, keepEntry, h] using ih
      · simpa [List.filter_cons, keepEntry, h, findMd] using ih
    | jsonFile stem fields =>
      by_cases h : stem = n
      · simpa [List.filter_cons, keepEntry, h] using ih
      · simpa [List.filter_cons, keepEntry, h, findMd] using ih

theorem findJson_filter_keep (es : List Entry) (n : Str) :
    findJson (es.filter (keepEntry n)) n = none := by
  induction es with
  | nil => rfl
  | cons e rest ih =>
    cases e with
    | mdFile stem text =>
      by_cases h : stem = n
      · simpa [List.filter_cons, keepEntry, h] using ih
      · simpa [List.filter_cons, keepEntry, h, findJson] using ih
    | jsonFile stem fields =>
      by_cases h : stem = n
      · simpa [List.filter_cons, keepEntry, h] using ih
      · simpa [List.filter_cons, keepEntry, h, findJson] using ih

/-- A cache hit recorded by `load_skill`: whenever a record is returned, the
post-state cache resolves the `source:name` key to exactly that record. -/
theorem load_skill_caches (m : Manager) (n src : Str) (sk : Skill) :
    (load_skill m n src).1 = some sk →
    findA ((load_skill m n src).2).cache (src ++ ':' :: n) = some sk := by
  unfold load_skill
  cases hc : findA m.cache (src ++ ':' :: n) with
  | some s =>
    intro h
    simp only [hc] at h ⊢
    obtain rfl : s = sk := by simpa using h
    rfl
  | none =>
    cases h1 : (if src = S "auto" ∨ src = S "workspace" then
        load_from_directory n (wsDirOpt m) else none) with
    | some s =>
      intro h
      simp only [hc, h1] at h ⊢
      obtain rfl : s = sk := by simpa using h
      exact findA_setA_self m.cache (src ++ ':' :: n) s
    | none =>
      cases h2 : (if src = S "auto" ∨ src = S "official" then
          load_from_directory n (some m.offDir) else none) with
      | some s =>
        intro h
        simp only [hc, h1, h2] at h ⊢
        obtain rfl : s = sk := by simpa using h
        exact findA_setA_self m.cache (src ++ ':' :: n) s
      | none =>
        intro h
        simp only [hc, h1, h2] at h
        exact absurd h (by simp)

/-- Deletion touches at most the `target:name` cache key (helper shared by
the deletion theorems). -/
theorem delete_cache_frame (m : Manager) (n target k : Str)
    (hk : k ≠ target ++ ':' :: n) :
    findA ((delete_skill m n target).2).cache k = findA m.cache k := by
  unfold delete_skill
  by_cases ho : target = S "official"
  · subst ho
    simpa using findA_eraseA_other m.cache (S "official" ++ ':' :: n) k hk
  · rw [if_neg ho]
    cases hw : m.hasWorkspace with
    | true => simpa using findA_eraseA_other m.cache (target ++ ':' :: n) k hk
    | false => simp

/-- C5: a present-but-malformed metadata block makes the parser log a
warning and return empty metadata with the entire original content
(delimiters included) as the body; the failure never escapes as an
exception (the embedded parser is total and takes the fallback branch). -/
theorem c5_malformed_block_falls_back (content y b : Str)
    (hm : parseFM content = some (y, b)) (hy : yamlLoad y = none) :
    parse_yaml_frontmatter content = ([], content) ∧ parseWarns content = true := by
  unfold parse_yaml_frontmatter parseWarns
  simp [hm, hy]

/-- Witness for C5 at a concrete malformed block: a second `: ` inside a
plain value (`a: b: c`) is a real structured-data error.  By contrast a
bare-scalar block (`badline`) loads without error as a non-mapping document
and is not a fallback case. -/
theorem c5_malformed_block_falls_back_witness :
    parseFM (S "---\na: b: c\n---\n\nbody") = some (S "a: b: c", S "body") ∧
    yamlLoad (S "a: b: c") = none ∧
    (parse_yaml_frontmatter (S "---\na: b: c\n---\n\nbody") =
        ([], S "---\na: b: c\n---\n\nbody") ∧
      parseWarns (S "---\na: b: c\n---\n\nbody") = true) ∧
    yamlLoad (S "badline") = some YamlDoc.nonMapping ∧
    parse_yaml_frontmatter (S "---\nbadline\n---\n\nbody") = ([], S "body") ∧
    parseWarns (S "---\nbadline\n---\n\nbody") = false :=
  ⟨by decide, by decide,
    c5_malformed_block_falls_back (S "---\na: b: c\n---\n\nbody") (S "a: b: c") (S "body")
      (by decide) (by decide), by decide, by decide, by decide⟩

/-- C6: deleting a name from the workspace scope removes both encoded files
when present, leaves the official directory and the workspace manifests
untouched, clears the `workspace:name` cache key, and returns true exactly
when one of the two files existed. -/
theorem c6_delete_workspace (m : Manager) (n : Str) (hw : m.hasWorkspace = true) :
    (delete_skill m n (S "workspace")).1 =
      (hasTopMd m.wsDir n || hasTopJson m.wsDir n) ∧
    hasTopMd ((delete_skill m n (S "workspace")).2).wsDir n = false ∧
    hasTopJson ((delete_skill m n (S "workspace")).2).wsDir n = false ∧
    findA ((delete_skill m n (S "workspace")).2).cache (S "workspace" ++ ':' :: n) = none ∧
    ((delete_skill m n (S "workspace")).2).offDir = m.offDir ∧
    ((delete_skill m n (S "workspace")).2).wsDir.manifests = m.wsDir.manifests := by
  have hne : ¬ (S "workspace" = S "official") := by decide
  simp [delete_skill, hne, hw, hasTopMd, hasTopJson, removeTop,
    findMd_filter_keep, findJson_filter_keep, findA_eraseA_self]

/-- Concrete manager exercising deletion: both `x.md` and `x.json` exist in
the workspace and the cache holds the `workspace:x` key. -/
def exMgrDel : Manager :=
  { hasWorkspace := true,
    wsDir := { entries := [Entry.mdFile (S "x") (S "b1"),
                           Entry.jsonFile (S "x") [(S "name", S "x")]],
               manifests := [(S "sub", S "mtext")] },
    offDir := { entries := [Entry.mdFile (S "x") (S "b2")], manifests := [] },
    cache := [(S "workspace" ++ ':' :: S "x", [(S "name", S "x")])] }

/-- Witness for C6 at `exMgrDel`. -/
theorem c6_delete_workspace_witness :
    exMgrDel.hasWorkspace = true ∧
    ((delete_skill exMgrDel (S "x") (S "workspace")).1 =
      (hasTopMd exMgrDel.wsDir (S "x") || hasTopJson exMgrDel.wsDir (S "x")) ∧
    hasTopMd ((delete_skill exMgrDel (S "x") (S "workspace")).2).wsDir (S "x") = false ∧
    hasTopJson ((delete_skill exMgrDel (S "x") (S "workspace")).2).wsDir (S "x") = false ∧
    findA ((delete_skill exMgrDel (S "x") (S "workspace")).2).cache
      (S "workspace" ++ ':' :: S "x") = none ∧
    ((delete_skill exMgrDel (S "x") (S "workspace")).2).offDir = exMgrDel.offDir ∧
    ((delete_skill exMgrDel (S "x") (S "workspace")).2).wsDir.manifests =
      exMgrDel.wsDir.manifests) :=
  ⟨by decide, c6_delete_workspace exMgrDel (S "x") (by decide)⟩

/-- C8: save fails with a `none` result and an unchanged state both when the
workspace scope is targeted without a configured workspace root and when the
requested format is neither of the two supported encodings. -/
theorem c8_save_failure_modes (m : Manager) (sk : Skill) (format target : Str) :
    (¬ target = S "official" → m.hasWorkspace = false →
      save_skill m sk format target = (none, m)) ∧
    (¬ format = S "md" → ¬ format = S "json" →
      save_skill m sk format target = (none, m)) := by
  constructor
  · intro ht hw
    unfold save_skill
    simp [ht, hw]
  · intro h1 h2
    unfold save_skill
    by_cases hcfg : ¬ target = S "official" ∧ ¬ m.hasWorkspace = true
    · simp [hcfg]
    · simp only [if_neg hcfg]
      cases hn : findA sk (S "name") with
      | none => rfl
      | some nm => simp [h1, h2]

/-- Concrete manager for the save-failure witness: no workspace configured. -/
def exMgrNoWs : Manager :=
  { hasWorkspace := false, wsDir := { entries := [], manifests := [] },
    offDir := { entries := [], manifests := [] }, cache := [] }

/-- Witness for C8: unconfigured workspace target and an unsupported format
both return the failure indicator and leave the state unchanged. -/
theorem c8_save_failure_modes_witness :
    (save_skill exMgrNoWs [(S "name", S "a")] (S "md") (S "workspace") =
      (none, exMgrNoWs)) ∧
    (save_skill exMgrNoWs [(S "name", S "a")] (S "xml") (S "official") =
      (none, exMgrNoWs)) :=
  ⟨(c8_save_failure_modes exMgrNoWs [(S "name", S "a")] (S "md") (S "workspace")).1
      (by decide) (by decide),
   (c8_save_failure_modes exMgrNoWs [(S "name", S "a")] (S "xml") (S "official")).2
      (by decide) (by decide)⟩

/-- C10: deletion removes at most the single `target:name` cache entry, so a
record cached by an `auto` load survives a workspace or official delete and
a later `auto` load still returns the stale cached record. -/
theorem c10_delete_keeps_other_cache_entries
    (m : Manager) (n target k : Str) (hk : k ≠ target ++ ':' :: n)
    (m2 : Manager) (n2 tgt : Str) (sk : Skill)
    (hload : (load_skill m2 n2 (S "auto")).1 = some sk)
    (htgt : tgt = S "workspace" ∨ tgt = S "official") :
    findA ((delete_skill m n target).2).cache k = findA m.cache k ∧
    (load_skill ((delete_skill ((load_skill m2 n2 (S "auto")).2) n2 tgt).2) n2
      (S "auto")).1 = some sk := by
  refine ⟨delete_cache_frame m n target k hk, ?_⟩
  have hcache := load_skill_caches m2 n2 (S "auto") sk hload
  have hkey : S "auto" ++ ':' :: n2 ≠ tgt ++ ':' :: n2 := by
    cases htgt with
    | inl h =>
      subst h
      intro hcontra
      have e1 : List.head? (S "auto" ++ ':' :: n2) = some 'a' := rfl
      have e2 : List.head? (S "workspace" ++ ':' :: n2) = some 'w' := rfl
      rw [hcontra, e2] at e1
      exact absurd e1 (by decide)
    | inr h =>
      subst h
      intro hcontra
      have e1 : List.head? (S "auto" ++ ':' :: n2) = some 'a' := rfl
      have e2 : List.head? (S "official" ++ ':' :: n2) = some 'o' := rfl
      rw [hcontra, e2] at e1
      exact absurd e1 (by decide)
  have hfound :
      findA ((delete_skill ((load_skill m2 n2 (S "auto")).2) n2 tgt).2).cache
        (S "auto" ++ ':' :: n2) = some sk := by
    rw [delete_cache_frame ((load_skill m2 n2 (S "auto")).2) n2 tgt
      (S "auto" ++ ':' :: n2) hkey]
    exact hcache
  revert hfound
  generalize (delete_skill ((load_skill m2 n2 (S "auto")).2) n2 tgt).2 = m3
  intro hfound
  unfold load_skill
  simp [hfound]

/-- Concrete manager for the C10 witness: `a.md` exists in the workspace. -/
def exMgrC10 : Manager :=
  { hasWorkspace := true,
    wsDir := { entries := [Entry.mdFile (S "a") (S "body a")], manifests := [] },
    offDir := { entries := [], manifests := [] }, cache := [] }

/-- Witness for C10: the cached auto record survives a workspace delete. -/
theorem c10_delete_keeps_other_cache_entries_witness :
    findA ((delete_skill exMgrC10 (S "a") (S "workspace")).2).cache (S "auto" ++ ':' :: S "a") =
      findA exMgrC10.cache (S "auto" ++ ':' :: S "a") ∧
    (load_skill ((delete_skill ((load_skill exMgrC10 (S "a") (S "auto")).2) (S "a")
      (S "workspace")).2) (S "a") (S "auto")).1 =
      some (load_skill_from_md (S "body a") (S "a")) :=
  c10_delete_keeps_other_cache_entries exMgrC10 (S "a") (S "workspace")
    (S "auto" ++ ':' :: S "a") (by decide) exMgrC10 (S "a") (S "workspace")
    (load_skill_from_md (S "body a") (S "a")) (by decide) (Or.inl rfl)

/-- The record parsed from a directory's top-level file for a name, with the
structured-text encoding preferred, exactly as `_load_from_directory` reads
it; `none` when neither top-level encoding is present. -/
def topRecord (d : Dir) (name : Str) : Option Skill :=
  match findMd d.entries name with
  | some text => some (load_skill_from_md text name)
  | none => (findJson d.entries name).map (fun fields => load_skill_from_json fields name)

/-- When a top-level file exists, directory lookup returns its parse and
never reaches the manifest fallback. -/
theorem load_from_directory_top (d : Dir) (name : Str)
    (h : (hasTopMd d name || hasTopJson d name) = true) :
    load_from_directory name (some d) = topRecord d name ∧
    (topRecord d name).isSome = true := by
  unfold load_from_directory topRecord
  cases hmd : findMd d.entries name with
  | some text => simp [hmd]
  | none =>
    cases hj : findJson d.entries name with
    | some fields => simp [hmd, hj]
    | none =>
      exfalso
      simp [hasTopMd, hasTopJson, hmd, hj] at h

/-- C1: with a name present at the top level of both scopes and no prior
cache entry, an `auto` load returns the workspace file's parse — the
official directory `od` is universally quantified and absent from the
result, so it is never consulted — while an `official` load returns the
official file's parse. -/
theorem c1_workspace_precedence (m : Manager) (od : Dir) (n : Str)
    (hw : m.hasWorkspace = true)
    (hc1 : findA m.cache (S "auto" ++ ':' :: n) = none)
    (hc2 : findA m.cache (S "official" ++ ':' :: n) = none)
    (hws : (hasTopMd m.wsDir n || hasTopJson m.wsDir n) = true)
    (hoff : (hasTopMd od n || hasTopJson od n) = true) :
    (load_skill { m with offDir := od } n (S "auto")).1 = topRecord m.wsDir n ∧
    (topRecord m.wsDir n).isSome = true ∧
    (load_skill { m with offDir := od } n (S "official")).1 = topRecord od n ∧
    (topRecord od n).isSome = true := by
  obtain ⟨hdir, hsome⟩ := load_from_directory_top m.wsDir n hws
  obtain ⟨hdir2, hsome2⟩ := load_from_directory_top od n hoff
  obtain ⟨sk, hsk⟩ := Option.isSome_iff_exists.mp hsome
  obtain ⟨sk2, hsk2⟩ := Option.isSome_iff_exists.mp hsome2
  have d2 : ¬ (S "official" = S "auto") := by decide
  have d3 : ¬ (S "official" = S "workspace") := by decide
  refine ⟨?_, hsome, ?_, hsome2⟩
  · unfold load_skill
    have hwm : wsDirOpt { m with offDir := od } = some m.wsDir := by
      simp [wsDirOpt, hw]
    have hload : load_from_directory n (wsDirOpt { m with offDir := od }) = some sk := by
      rw [hwm, hdir, hsk]
    rw [hsk]
    simp [hc1, hload]
  · unfold load_skill
    have hload2 : load_from_directory n (some ({ m with offDir := od } : Manager).offDir) =
        some sk2 := hdir2.trans hsk2
    rw [hsk2]
    simp [hc2, d2, d3, hload2]

/-- Concrete two-scope state for the C1 witness: `a.md` in both scopes with
different descriptions. -/
def exMgrC1 : Manager :=
  { hasWorkspace := true,
    wsDir := { entries := [Entry.mdFile (S "a") (S "---\ndescription: ws\n---\n\nwb")],
               manifests := [] },
    offDir := { entries := [], manifests := [] }, cache := [] }

/-- Official directory for the C1 witness. -/
def exDirC1 : Dir :=
  { entries := [Entry.mdFile (S "a") (S "---\ndescription: off\n---\n\nob")],
    manifests := [] }

/-- Witness for C1: every hypothesis holds at the concrete state and both
loads return the scope-correct record. -/
theorem c1_workspace_precedence_witness :
    exMgrC1.hasWorkspace = true ∧
    ((load_skill { exMgrC1 with offDir := exDirC1 } (S "a") (S "auto")).1 =
        topRecord exMgrC1.wsDir (S "a") ∧
      (topRecord exMgrC1.wsDir (S "a")).isSome = true ∧
      (load_skill { exMgrC1 with offDir := exDirC1 } (S "a") (S "official")).1 =
        topRecord exDirC1 (S "a") ∧
      (topRecord exDirC1 (S "a")).isSome = true) :=
  ⟨by decide,
    c1_workspace_precedence exMgrC1 exDirC1 (S "a") (by decide) (by decide) (by decide)
      (by decide) (by decide)⟩

/-- C9: a single-record load matches top-level structured-text files by
filename, returns the record carrying the metadata-block name (which may
differ from the requested name), and caches it under the requested name. -/
theorem c9_filename_match_metadata_name (m : Manager) (n text nmv source : Str)
    (hsrc : source = S "auto" ∨ source = S "workspace")
    (hw : m.hasWorkspace = true)
    (hc : findA m.cache (source ++ ':' :: n) = none)
    (hmd : findMd m.wsDir.entries n = some text)
    (hnm : findA (parse_yaml_frontmatter text).1 (S "name") = some nmv) :
    (load_skill m n source).1 = some (load_skill_from_md text n) ∧
    findA (load_skill_from_md text n) (S "name") = some nmv ∧
    ((load_skill m n source).2).cache =
      setA m.cache (source ++ ':' :: n) (load_skill_from_md text n) := by
  have hname : findA (load_skill_from_md text n) (S "name") = some nmv := by
    unfold load_skill_from_md
    rw [findA_fold_opt _ _ _ _ (by decide)]
    simp [findA, getA, hnm]
  have hload : (if source = S "auto" ∨ source = S "workspace" then
      load_from_directory n (wsDirOpt m) else none) = some (load_skill_from_md text n) := by
    rw [if_pos hsrc]
    have : wsDirOpt m = some m.wsDir := by simp [wsDirOpt, hw]
    rw [this]
    unfold load_from_directory
    simp [hmd]
  refine ⟨?_, hname, ?_⟩
  · unfold load_skill
    simp only [hc, hload]
  · unfold load_skill
    simp only [hc, hload]

/-- Concrete state for the C9 witness: `bar.md` whose metadata block names
the record `foo`. -/
def exMgrC9 : Manager :=
  { hasWorkspace := true,
    wsDir := { entries := [Entry.mdFile (S "bar") (S "---\nname: foo\n---\n\nB")],
               manifests := [] },
    offDir := { entries := [], manifests := [] }, cache := [] }

/-- Witness for C9: loading `bar` returns a record whose `name` is `foo`,
cached under the requested key `workspace:bar`, and the two names differ. -/
theorem c9_filename_match_metadata_name_witness :
    ((load_skill exMgrC9 (S "bar") (S "workspace")).1 =
        some (load_skill_from_md (S "---\nname: foo\n---\n\nB") (S "bar")) ∧
      findA (load_skill_from_md (S "---\nname: foo\n---\n\nB") (S "bar")) (S "name") =
        some (S "foo") ∧
      ((load_skill exMgrC9 (S "bar") (S "workspace")).2).cache =
        setA exMgrC9.cache (S "workspace" ++ ':' :: S "bar")
          (load_skill_from_md (S "---\nname: foo\n---\n\nB") (S "bar"))) ∧
    ¬ (S "foo" = S "bar") :=
  ⟨c9_filename_match_metadata_name exMgrC9 (S "bar") (S "---\nname: foo\n---\n\nB")
      (S "foo") (S "workspace") (Or.inr rfl) (by decide) (by decide) (by decide) (by decide),
   by decide⟩

/-- Concrete state for C4: a top-level `bar.md` whose metadata block sets
`name: foo`, and nothing else in either scope. -/
def exMgrC4 : Manager :=
  { hasWorkspace := true,
    wsDir := { entries := [Entry.mdFile (S "bar")
                 (S "---\nname: foo\ndescription: d\n---\n\nbody")],
               manifests := [] },
    offDir := { entries := [], manifests := [] }, cache := [] }

/-- Counterexample to C4 as stated: with only the top-level `bar.md`
(metadata name `foo`) present, loading `foo` finds nothing in any selector,
while loading `bar` returns the record — whose `name` attribute is `foo`. -/
theorem c4_counterexample :
    (load_skill exMgrC4 (S "foo") (S "workspace")).1 = none ∧
    (load_skill exMgrC4 (S "foo") (S "auto")).1 = none ∧
    ((load_skill exMgrC4 (S "bar") (S "workspace")).1.map
      (fun sk => findA sk (S "name"))) = some (some (S "foo")) := by decide

/-- C4 (amended): metadata-name resolution as claimed holds for manifest
(`SKILL.md`) files — such a record loads under `foo` and not under its
parent directory name — and for enumeration of top-level files (the listing
shows `foo`, not `bar`); but `load_skill` matches top-level files by
filename: `bar.md` with metadata name `foo` loads under `bar` (carrying
name `foo`) and is not found under `foo`. -/
theorem c4_amended_name_resolution (od od2 : Dir) (stem txt parent nmv body : Str)
    (fm : List (Str × Str))
    (hp : parse_yaml_frontmatter txt = (fm, body))
    (hn : findA fm (S "name") = some nmv)
    (hs : pyStrip nmv = nmv)
    (hne : nmv ≠ [])
    (hdiff : nmv ≠ stem)
    (hpar : nmv ≠ parent)
    (hex : ¬ upperStr stem ∈ excludedNames)
    (hskill : stem ≠ S "SKILL") :
    (load_skill
      { hasWorkspace := true, wsDir := { entries := [Entry.mdFile stem txt], manifests := [] },
        offDir := od, cache := [] } nmv (S "workspace")).1 = none ∧
    (load_skill
      { hasWorkspace := true, wsDir := { entries := [Entry.mdFile stem txt], manifests := [] },
        offDir := od, cache := [] } stem (S "workspace")).1 =
      some (load_skill_from_md txt stem) ∧
    findA (load_skill_from_md txt stem) (S "name") = some nmv ∧
    list_from_directory { entries := [Entry.mdFile stem txt], manifests := [] } = [nmv] ∧
    (load_skill
      { hasWorkspace := true, wsDir := { entries := [], manifests := [(parent, txt)] },
        offDir := od2, cache := [] } nmv (S "workspace")).1 =
      some (load_skill_from_md txt nmv) ∧
    (load_skill
      { hasWorkspace := true, wsDir := { entries := [], manifests := [(parent, txt)] },
        offDir := od2, cache := [] } parent (S "workspace")).1 = none := by
  have hinf : ∀ fb : Str, infer_skill_name_from_md txt fb = nmv := by
    intro fb
    unfold infer_skill_name_from_md
    rw [hp]
    simp [hn, hs, hne]
  have hws_only : ¬ (S "workspace" = S "auto" ∨ S "workspace" = S "official") := by decide
  refine ⟨?_, ?_, ?_, ?_, ?_, ?_⟩
  · unfold load_skill
    simp [findA, hws_only, load_from_directory, wsDirOpt, findMd, findJson,
      load_from_skill_manifest, Ne.symm hdiff]
  · unfold load_skill
    simp [findA, hws_only, load_from_directory, wsDirOpt, findMd, findJson,
      load_from_skill_manifest]
  · unfold load_skill_from_md
    rw [findA_fold_opt _ _ _ _ (by decide)]
    simp [findA, getA, hp, hn]
  · unfold list_from_directory rawNames iter_skill_files
    simp [hex, hskill, candidateName, hinf, dedupFirst, dedupFirstAux]
  · unfold load_skill
    simp [findA, hws_only, load_from_directory, wsDirOpt, findMd, findJson,
      load_from_skill_manifest, hinf]
  · unfold load_skill
    simp [findA, hws_only, load_from_directory, wsDirOpt, findMd, findJson,
      load_from_skill_manifest, hinf, hpar]

/-- Witness for the amended C4 at the concrete `bar.md` / `SKILL.md` pair
with metadata name `foo`. -/
theorem c4_amended_name_resolution_witness :
    (load_skill
      { hasWorkspace := true,
        wsDir := { entries := [Entry.mdFile (S "bar")
                     (S "---\nname: foo\ndescription: d\n---\n\nbody")], manifests := [] },
        offDir := { entries := [], manifests := [] }, cache := [] }
      (S "foo") (S "workspace")).1 = none ∧
    (load_skill
      { hasWorkspace := true,
        wsDir := { entries := [Entry.mdFile (S "bar")
                     (S "---\nname: foo\ndescription: d\n---\n\nbody")], manifests := [] },
        offDir := { entries := [], manifests := [] }, cache := [] }
      (S "bar") (S "workspace")).1 =
      some (load_skill_from_md (S "---\nname: foo\ndescription: d\n---\n\nbody") (S "bar")) ∧
    findA (load_skill_from_md (S "---\nname: foo\ndescription: d\n---\n\nbody") (S "bar"))
      (S "name") = some (S "foo") ∧
    list_from_directory
      { entries := [Entry.mdFile (S "bar")
          (S "---\nname: foo\ndescription: d\n---\n\nbody")], manifests := [] } = [S "foo"] ∧
    (load_skill
      { hasWorkspace := true,
        wsDir := { entries := [],
                   manifests := [(S "bardir",
                     S "---\nname: foo\ndescription: d\n---\n\nbody")] },
        offDir := { entries := [], manifests := [] }, cache := [] }
      (S "foo") (S "workspace")).1 =
      some (load_skill_from_md (S "---\nname: foo\ndescription: d\n---\n\nbody") (S "foo")) ∧
    (load_skill
      { hasWorkspace := true,
        wsDir := { entries := [],
                   manifests := [(S "bardir",
                     S "---\nname: foo\ndescription: d\n---\n\nbody")] },
        offDir := { entries := [], manifests := [] }, cache := [] }
      (S "bardir") (S "workspace")).1 = none :=
  c4_amended_name_resolution { entries := [], manifests := [] }
    { entries := [], manifests := [] } (S "bar")
    (S "---\nname: foo\ndescription: d\n---\n\nbody") (S "bardir") (S "foo") (S "body")
    [(S "name", S "foo"), (S "description", S "d")]
    (by decide) (by decide) (by decide) (by decide) (by decide) (by decide)
    (by decide) (by decide)

/-- Records produced by the per-directory bulk loader have pairwise distinct
names, and every produced name avoids the seen accumulator. -/
theorem loadAllAux_names (files : List (Entry × Str)) :
    ∀ seen : List Str,
      ((loadAllAux files seen).map skillName).Nodup ∧
      ∀ sk ∈ loadAllAux files seen, ¬ skillName sk ∈ seen := by
  induction files with
  | nil =>
    intro seen
    exact ⟨List.nodup_nil, by intro sk h; simp [loadAllAux] at h⟩
  | cons p rest ih =>
    intro seen
    obtain ⟨e, fb⟩ := p
    unfold loadAllAux
    cases hl : load_skill_from_path e fb with
    | none => simp only [hl]; exact ih seen
    | some sk =>
      cases hn : findA sk (S "name") with
      | none => simp only [hl, hn]; exact ih seen
      | some nm =>
        simp only [hl, hn]
        by_cases hskip : nm = [] ∨ nm ∈ seen
        · rw [if_pos hskip]; exact ih seen
        · rw [if_neg hskip]
          push_neg at hskip
          obtain ⟨hne, hnotin⟩ := hskip
          have hskn : skillName sk = nm := by simp [skillName, hn]
          obtain ⟨ihn, ihm⟩ := ih (nm :: seen)
          constructor
          · rw [List.map_cons, List.nodup_cons]
            refine ⟨?_, ihn⟩
            rw [hskn]
            intro hmem
            obtain ⟨sk2, hsk2, hname2⟩ := List.mem_map.mp hmem
            exact (ihm sk2 hsk2) (hname2 ▸ List.mem_cons_self nm seen)
          · intro sk2 hsk2
            rcases List.mem_cons.mp hsk2 with h | h
            · subst h
              rw [hskn]
              exact hnotin
            · exact fun hmem => (ihm sk2 h) (List.mem_cons_of_mem nm hmem)

/-- The official merge loop is a filter against the captured names whenever
the incoming list has pairwise distinct names. -/
theorem mergeOff_eq_filter (l : List Skill) :
    (l.map skillName).Nodup →
    ∀ names names2 : List Str,
      (∀ sk ∈ l, (skillName sk ∈ names ↔ skillName sk ∈ names2)) →
      mergeOff l names = l.filter (fun sk => ¬ skillName sk ∈ names2) := by
  induction l with
  | nil => intro _ names names2 _; rfl
  | cons sk rest ih =>
    intro hnodup names names2 hiff
    rw [List.map_cons, List.nodup_cons] at hnodup
    obtain ⟨hhead, hnodup2⟩ := hnodup
    unfold mergeOff
    by_cases hmem : skillName sk ∈ names
    · rw [if_pos hmem, List.filter_cons]
      have h2 : skillName sk ∈ names2 := (hiff sk (List.mem_cons_self sk rest)).mp hmem
      have hdec : decide (¬ skillName sk ∈ names2) = false := by simp [h2]
      rw [hdec]
      simp only [Bool.false_eq_true, if_false]
      exact ih hnodup2 names names2 (fun sk2 h => hiff sk2 (List.mem_cons_of_mem sk h))
    · rw [if_neg hmem, List.filter_cons]
      have h2 : ¬ skillName sk ∈ names2 :=
        fun hh => hmem ((hiff sk (List.mem_cons_self sk rest)).mpr hh)
      have hdec : decide (¬ skillName sk ∈ names2) = true := by simp [h2]
      rw [hdec, if_pos rfl]
      congr 1
      apply ih hnodup2 (skillName sk :: names) names2
      intro sk2 hsk2
      constructor
      · intro hmm
        rcases List.mem_cons.mp hmm with he | hm
        · exact absurd (he ▸ List.mem_map_of_mem skillName hsk2) hhead
        · exact (hiff sk2 (List.mem_cons_of_mem sk hsk2)).mp hm
      · intro hmm
        exact List.mem_cons_of_mem _ ((hiff sk2 (List.mem_cons_of_mem sk hsk2)).mpr hmm)

/-- C2: `load_all_skills "all"` is exactly the workspace records followed by
the official records whose names were not captured by the workspace, and no
two returned records share a name. -/
theorem c2_load_all_dedup (m : Manager) (hw : m.hasWorkspace = true) :
    load_all_skills m (S "all") =
      load_all_from_directory m.wsDir ++
        (load_all_from_directory m.offDir).filter
          (fun sk => ¬ skillName sk ∈ (load_all_from_directory m.wsDir).map skillName) ∧
    ((load_all_skills m (S "all")).map skillName).Nodup := by
  have hcond : (S "all" = S "auto" ∨ S "all" = S "all" ∨ S "all" = S "workspace") := by decide
  have hcond2 : (S "all" = S "auto" ∨ S "all" = S "all" ∨ S "all" = S "official") := by decide
  have hws : wsLoadPart m (S "all") = load_all_from_directory m.wsDir := by
    unfold wsLoadPart
    rw [if_pos ⟨hcond, hw⟩]
  have hoffnodup : ((load_all_from_directory m.offDir).map skillName).Nodup :=
    (loadAllAux_names (iter_skill_files m.offDir) []).1
  have hwsnodup : ((load_all_from_directory m.wsDir).map skillName).Nodup :=
    (loadAllAux_names (iter_skill_files m.wsDir) []).1
  have hmerge : mergeOff (load_all_from_directory m.offDir)
      ((load_all_from_directory m.wsDir).map skillName) =
      (load_all_from_directory m.offDir).filter
        (fun sk => ¬ skillName sk ∈ (load_all_from_directory m.wsDir).map skillName) :=
    mergeOff_eq_filter _ hoffnodup _ _ (fun sk _ => Iff.rfl)
  have hmain : load_all_skills m (S "all") =
      load_all_from_directory m.wsDir ++
        (load_all_from_directory m.offDir).filter
          (fun sk => ¬ skillName sk ∈ (load_all_from_directory m.wsDir).map skillName) := by
    unfold load_all_skills
    rw [if_pos hcond2, hws, hmerge]
  refine ⟨hmain, ?_⟩
  rw [hmain, List.map_append, List.nodup_append]
  refine ⟨hwsnodup, ?_, ?_⟩
  · exact List.Nodup.sublist
      (List.Sublist.map skillName (List.filter_sublist (load_all_from_directory m.offDir)))
      hoffnodup
  · intro x hx hx2
    obtain ⟨sk2, hsk2, hname2⟩ := List.mem_map.mp hx2
    have := List.of_mem_filter hsk2
    rw [hname2] at this
    simp [hx] at this

/-- Concrete two-scope state shared by the listing and statistics examples:
workspace `a.md`, official `a.json` (name `a`) and `b.md` (name `b`). -/
def exMgrStats : Manager :=
  { hasWorkspace := true,
    wsDir := { entries := [Entry.mdFile (S "a") (S "wsbody")], manifests := [] },
    offDir := { entries := [Entry.jsonFile (S "a") [(S "name", S "a")],
                            Entry.mdFile (S "b") (S "offbody")], manifests := [] },
    cache := [] }

/-- Witness for C2 at `exMgrStats`: the colliding official `a` is dropped,
workspace first, names pairwise distinct. -/
theorem c2_load_all_dedup_witness :
    exMgrStats.hasWorkspace = true ∧
    (load_all_skills exMgrStats (S "all") =
      load_all_from_directory exMgrStats.wsDir ++
        (load_all_from_directory exMgrStats.offDir).filter
          (fun sk => ¬ skillName sk ∈
            (load_all_from_directory exMgrStats.wsDir).map skillName) ∧
    ((load_all_skills exMgrStats (S "all")).map skillName).Nodup) :=
  ⟨by decide, c2_load_all_dedup exMgrStats (by decide)⟩

/-- Membership in the first-occurrence de-duplication. -/
theorem mem_dedupFirstAux (l : List Str) :
    ∀ (seen : List Str) (x : Str),
      x ∈ dedupFirstAux l seen ↔ (x ∈ l ∧ ¬ x ∈ seen) := by
  induction l with
  | nil => intro seen x; simp [dedupFirstAux]
  | cons y rest ih =>
    intro seen x
    unfold dedupFirstAux
    by_cases hy : y ∈ seen
    · rw [if_pos hy, ih]
      constructor
      · rintro ⟨h1, h2⟩
        exact ⟨List.mem_cons_of_mem y h1, h2⟩
      · rintro ⟨h1, h2⟩
        rcases List.mem_cons.mp h1 with rfl | h1
        · exact absurd hy h2
        · exact ⟨h1, h2⟩
    · rw [if_neg hy]
      constructor
      · intro hm
        rcases List.mem_cons.mp hm with rfl | hm
        · exact ⟨List.mem_cons_self x rest, hy⟩
        · obtain ⟨h1, h2⟩ := (ih (y :: seen) x).mp hm
          exact ⟨List.mem_cons_of_mem y h1, fun hh => h2 (List.mem_cons_of_mem y hh)⟩
      · rintro ⟨h1, h2⟩
        rcases List.mem_cons.mp h1 with rfl | h1
        · exact List.mem_cons_self x _
        · by_cases hxy : x = y
          · subst hxy
            exact List.mem_cons_self x _
          · exact List.mem_cons_of_mem y ((ih (y :: seen) x).mpr
              ⟨h1, fun hh => (List.mem_cons.mp hh).elim hxy h2⟩)

/-- The first-occurrence de-duplication yields pairwise distinct names. -/
theorem nodup_dedupFirstAux (l : List Str) :
    ∀ seen : List Str, (dedupFirstAux l seen).Nodup := by
  induction l with
  | nil => intro seen; exact List.nodup_nil
  | cons y rest ih =>
    intro seen
    unfold dedupFirstAux
    by_cases hy : y ∈ seen
    · rw [if_pos hy]; exact ih seen
    · rw [if_neg hy]
      refine List.nodup_cons.mpr ⟨?_, ih (y :: seen)⟩
      intro hm
      exact ((mem_dedupFirstAux rest (y :: seen) y).mp hm).2 (List.mem_cons_self y seen)

/-- The de-duplicated list counts exactly the distinct elements. -/
theorem length_dedupFirst (l : List Str) : (dedupFirst l).length = l.dedup.length := by
  have h1 : (dedupFirst l).toFinset = l.toFinset := by
    ext x
    simp [dedupFirst, mem_dedupFirstAux]
  calc (dedupFirst l).length
      = (dedupFirst l).toFinset.card :=
        (List.toFinset_card_of_nodup (nodup_dedupFirstAux l [])).symm
    _ = l.toFinset.card := by rw [h1]
    _ = l.dedup.length := List.card_toFinset l

/-- De-duplicating the concatenation of two already de-duplicated name sets
counts the distinct names of the raw concatenation. -/
theorem length_dedupFirst_append (a b : List Str) :
    (dedupFirst (dedupFirst a ++ dedupFirst b)).length = ((a ++ b).dedup).length := by
  have h1 : (dedupFirst (dedupFirst a ++ dedupFirst b)).toFinset = (a ++ b).toFinset := by
    ext x
    simp [dedupFirst, mem_dedupFirstAux]
  calc (dedupFirst (dedupFirst a ++ dedupFirst b)).length
      = (dedupFirst (dedupFirst a ++ dedupFirst b)).toFinset.card :=
        (List.toFinset_card_of_nodup (nodup_dedupFirstAux _ [])).symm
    _ = (a ++ b).toFinset.card := by rw [h1]
    _ = ((a ++ b).dedup).length := List.card_toFinset (a ++ b)

/-- Concrete state refuting C7 as stated: the same name `a` in both scopes
and the `auto` selector. -/
def exMgrC7 : Manager :=
  { hasWorkspace := true,
    wsDir := { entries := [Entry.mdFile (S "a") (S "wsbody")], manifests := [] },
    offDir := { entries := [Entry.jsonFile (S "a") [(S "name", S "a")]], manifests := [] },
    cache := [] }

/-- Counterexample to C7 as stated: for the selector `auto` the reported
total is the plain per-scope sum 2, while only one distinct name exists
across the selected scopes. -/
theorem c7_counterexample :
    (get_stats exMgrC7 (S "auto")).total_skills = 2 ∧
    ((rawNames exMgrC7.wsDir ++ rawNames exMgrC7.offDir).dedup).length = 1 := by decide

/-- C7 (amended): the per-scope counts are distinct-name counts, but
`total_skills` is de-duplicated across scopes only for the selector
`"all"`; for every other selector it is the plain sum of the two per-scope
counts, double-counting names present in both scopes.  The spec's example
scenario yields `total_skills = 2` under `"all"`. -/
theorem c7_amended_stats (m : Manager) (source : Str) :
    (get_stats m source).workspace_skills =
      (if m.hasWorkspace then (rawNames m.wsDir).dedup.length else 0) ∧
    (get_stats m source).official_skills = (rawNames m.offDir).dedup.length ∧
    (source = S "all" →
      (get_stats m source).total_skills =
        (((if m.hasWorkspace then rawNames m.wsDir else []) ++ rawNames m.offDir).dedup).length) ∧
    (¬ source = S "all" →
      (get_stats m source).total_skills =
        (get_stats m source).workspace_skills + (get_stats m source).official_skills) ∧
    (get_stats exMgrStats (S "all")).total_skills = 2 := by
  refine ⟨?_, ?_, ?_, ?_, by decide⟩
  · unfold get_stats wsCount
    cases hw : m.hasWorkspace with
    | true => simp [list_from_directory, length_dedupFirst]
    | false => simp
  · unfold get_stats
    simp [list_from_directory, length_dedupFirst]
  · intro hall
    unfold get_stats
    rw [if_pos hall]
    cases hw : m.hasWorkspace with
    | true =>
      simp only [if_pos rfl, list_from_directory]
      exact length_dedupFirst_append (rawNames m.wsDir) (rawNames m.offDir)
    | false =>
      simp only [Bool.false_eq_true, if_false, list_from_directory]
      have := length_dedupFirst_append [] (rawNames m.offDir)
      simpa [dedupFirst, dedupFirstAux] using this
  · intro hnall
    unfold get_stats
    rw [if_neg hnall]

/-- Witness for the amended C7 at `exMgrC7` with the `auto` selector. -/
theorem c7_amended_stats_witness :
    (get_stats exMgrC7 (S "auto")).workspace_skills =
      (if exMgrC7.hasWorkspace then (rawNames exMgrC7.wsDir).dedup.length else 0) ∧
    (get_stats exMgrC7 (S "auto")).official_skills = (rawNames exMgrC7.offDir).dedup.length ∧
    (get_stats exMgrC7 (S "auto")).total_skills =
      (get_stats exMgrC7 (S "auto")).workspace_skills +
        (get_stats exMgrC7 (S "auto")).official_skills ∧
    (get_stats exMgrStats (S "all")).total_skills = 2 :=
  ⟨(c7_amended_stats exMgrC7 (S "auto")).1,
   (c7_amended_stats exMgrC7 (S "auto")).2.1,
   (c7_amended_stats exMgrC7 (S "auto")).2.2.2.1 (by decide),
   (c7_amended_stats exMgrC7 (S "auto")).2.2.2.2⟩

/-! ### Round-trip development: string-level lemmas -/

/-- Join lines with newline separators (inverse image of `splitNl`). -/
def joinNl : List Str → Str
  | [] => []
  | [l] => l
  | l :: rest => l ++ '\n' :: joinNl rest

/-- One metadata line as dumped for a pair: key, separator, dumped value. -/
def lineOf (kv : Str × Str) : Str := kv.1 ++ ':' :: ' ' :: dumpVal kv.2

/-- A well-behaved metadata key: non-empty, not starting with whitespace, a
dash or a comment marker, and free of newlines and colons.  Every key the
generator emits is from the fixed enumeration and satisfies this. -/
def goodKey (k : Str) : Bool :=
  match k with
  | [] => false
  | c :: rest =>
    !(isPySpace c) && (c != '-') && (c != '#') &&
      ((c :: rest).all (fun x => (x != '\n') && (x != ':')))

theorem goodKey_props (k : Str) (h : goodKey k = true) :
    (∀ c ∈ k, ¬ c = '\n') ∧ (∀ c ∈ k, ¬ c = ':') ∧ k.head? ≠ some '-' ∧
    (∃ c t, k = c :: t ∧ isPySpace c = false ∧ ¬ c = '#') := by
  cases k with
  | nil => simp [goodKey] at h
  | cons c t =>
    rw [goodKey, Bool.and_eq_true, Bool.and_eq_true, Bool.and_eq_true] at h
    obtain ⟨⟨⟨h1, h2⟩, h4⟩, h3⟩ := h
    rw [List.all_eq_true] at h3
    refine ⟨?_, ?_, ?_, c, t, rfl, by simpa using h1, by simpa using h4⟩
    · intro x hx
      have := h3 x hx
      rw [Bool.and_eq_true] at this
      simpa using this.1
    · intro x hx
      have := h3 x hx
      rw [Bool.and_eq_true] at this
      simpa using this.2
    · intro hh
      rw [List.head?_cons, Option.some.injEq] at hh
      rw [hh] at h2
      simp at h2

theorem splitNl_no_nl (l : Str) (h : ¬ '\n' ∈ l) : splitNl l = [l] := by
  induction l with
  | nil => rfl
  | cons c t ih =>
    have hc : ¬ c = '\n' := fun hh => h (hh ▸ List.mem_cons_self c t)
    have ht : ¬ '\n' ∈ t := fun hh => h (List.mem_cons_of_mem c hh)
    unfold splitNl
    rw [if_neg hc, ih ht]

theorem splitNl_append (l t : Str) (h : ¬ '\n' ∈ l) :
    splitNl (l ++ '\n' :: t) = l :: splitNl t := by
  induction l with
  | nil => simp [splitNl]
  | cons c u ih =>
    have hc : ¬ c = '\n' := fun hh => h (hh ▸ List.mem_cons_self c u)
    have hu : ¬ '\n' ∈ u := fun hh => h (List.mem_cons_of_mem c hh)
    rw [List.cons_append]
    simp only [splitNl]
    rw [if_neg hc, ih hu]

theorem splitNl_joinNl (ls : List Str) (hne : ls ≠ [])
    (h : ∀ l ∈ ls, ¬ '\n' ∈ l) : splitNl (joinNl ls) = ls := by
  induction ls with
  | nil => exact absurd rfl hne
  | cons l rest ih =>
    cases rest with
    | nil =>
      exact splitNl_no_nl l (h l (List.mem_cons_self l []))
    | cons l2 rest2 =>
      have hj : joinNl (l :: l2 :: rest2) = l ++ '\n' :: joinNl (l2 :: rest2) := rfl
      rw [hj, splitNl_append l _ (h l (List.mem_cons_self l _)),
        ih (by simp) (fun x hx => h x (List.mem_cons_of_mem l hx))]

theorem splitColon_key (k v : Str) (h : ∀ c ∈ k, ¬ c = ':') :
    splitColon (k ++ ':' :: ' ' :: v) = some (k, v) := by
  induction k with
  | nil =>
    rw [List.nil_append]
    unfold splitColon
    rw [if_pos ⟨rfl, rfl⟩]
    rfl
  | cons c u ih =>
    have hc : ¬ c = ':' := h c (List.mem_cons_self c u)
    rw [List.cons_append]
    unfold splitColon
    rw [if_neg (fun hh => hc hh.1), ih (fun x hx => h x (List.mem_cons_of_mem c hx))]
    rfl

theorem hasColonSpace_append (k v : Str) :
    hasColonSpace (k ++ ':' :: ' ' :: v) = true := by
  induction k with
  | nil => rfl
  | cons c u ih => simp [hasColonSpace, List.cons_append, ih]

theorem escapeChars_no_nl (v : Str) : ¬ '\n' ∈ escapeChars v := by
  induction v with
  | nil => simp [escapeChars]
  | cons c rest ih =>
    rw [escapeChars]
    by_cases h1 : c = '\\'
    · rw [if_pos h1]
      intro hm
      rcases List.mem_cons.mp hm with he | hm2
      · exact absurd he (by decide)
      rcases List.mem_cons.mp hm2 with he | hm3
      · exact absurd he (by decide)
      exact ih hm3
    · rw [if_neg h1]
      by_cases h2 : c = '"'
      · rw [if_pos h2]
        intro hm
        rcases List.mem_cons.mp hm with he | hm2
        · exact absurd he (by decide)
        rcases List.mem_cons.mp hm2 with he | hm3
        · exact absurd he (by decide)
        exact ih hm3
      · rw [if_neg h2]
        by_cases h3 : c = '\n'
        · rw [if_pos h3]
          intro hm
          rcases List.mem_cons.mp hm with he | hm2
          · exact absurd he (by decide)
          rcases List.mem_cons.mp hm2 with he | hm3
          · exact absurd he (by decide)
          exact ih hm3
        · rw [if_neg h3]
          intro hm
          rcases List.mem_cons.mp hm with he | hm2
          · exact h3 he.symm
          exact ih hm2

theorem dumpVal_no_nl (v : Str) : ¬ '\n' ∈ dumpVal v := by
  unfold dumpVal
  by_cases hq : needsQuote v = true
  · rw [if_pos hq]
    intro hm
    rcases List.mem_cons.mp hm with he | hm2
    · exact absurd he (by decide)
    rcases List.mem_append.mp hm2 with hm3 | hm4
    · exact escapeChars_no_nl v hm3
    rcases List.mem_cons.mp hm4 with he | hm5
    · exact absurd he (by decide)
    exact absurd hm5 (List.not_mem_nil '\n')
  · rw [if_neg hq]
    intro hm
    apply hq
    rw [needsQuote, Bool.or_eq_true, List.any_eq_true]
    exact Or.inl ⟨'\n', hm, by decide⟩

theorem parseQuoted_escape (v : Str) :
    parseQuoted (escapeChars v ++ ['"']) = some v := by
  induction v with
  | nil => rfl
  | cons c rest ih =>
    rw [escapeChars]
    by_cases h1 : c = '\\'
    · subst h1
      rw [if_pos rfl, List.cons_append, List.cons_append]
      simp [parseQuoted, unescapeChar, ih]
    · rw [if_neg h1]
      by_cases h2 : c = '"'
      · subst h2
        rw [if_pos rfl, List.cons_append, List.cons_append]
        simp [parseQuoted, unescapeChar, ih]
      · rw [if_neg h2]
        by_cases h3 : c = '\n'
        · subst h3
          rw [if_pos rfl, List.cons_append, List.cons_append]
          simp [parseQuoted, unescapeChar, ih]
        · rw [if_neg h3, List.cons_append, parseQuoted.eq_def]
          simp only []
          rw [if_neg h2, if_neg h1, ih, Option.map_some']

theorem parseVal_dumpVal (v : Str) : parseVal (dumpVal v) = some v := by
  by_cases hq : needsQuote v = true
  · have hd : dumpVal v = '"' :: (escapeChars v ++ ['"']) := by
      unfold dumpVal
      rw [if_pos hq]
    rw [hd]
    unfold parseVal
    rw [if_pos (show List.take 1 ('"' :: (escapeChars v ++ ['"'])) = ['"'] from rfl)]
    show parseQuoted (escapeChars v ++ ['"']) = some v
    exact parseQuoted_escape v
  · have hq' : needsQuote v = false := Bool.eq_false_iff.mpr hq
    have hd : dumpVal v = v := by
      unfold dumpVal
      rw [if_neg hq]
    rw [hd]
    rw [needsQuote, Bool.or_eq_false_iff] at hq'
    obtain ⟨hany, hcs⟩ := hq'
    unfold parseVal
    have htake : ¬ List.take 1 v = ['"'] := by
      cases v with
      | nil => intro hcontra; exact absurd hcontra (by decide)
      | cons c t =>
        intro hcontra
        have hc : c = '"' := by
          have he1 : List.take 1 (c :: t) = [c] := rfl
          rw [he1] at hcontra
          simpa using hcontra
        rw [List.any_eq_false] at hany
        have := hany c (List.mem_cons_self c t)
        rw [hc] at this
        exact this (by decide)
    rw [if_neg htake, if_neg (fun hcontra => Bool.false_ne_true (hcs ▸ hcontra))]

theorem dropWhile_ws_append (u w : Str) (h : ∀ c ∈ u, isPySpace c = true) :
    (u ++ w).dropWhile isPySpace = w.dropWhile isPySpace := by
  induction u with
  | nil => rfl
  | cons c t ih =>
    rw [List.cons_append, List.dropWhile_cons,
      if_pos (h c (List.mem_cons_self c t)), ih (fun x hx => h x (List.mem_cons_of_mem c hx))]

theorem pyStrip_ws_append (u w : Str) (h : ∀ c ∈ u, isPySpace c = true) :
    pyStrip (u ++ w) = pyStrip w := by
  unfold pyStrip
  rw [dropWhile_ws_append u w h]

theorem pyStrip_all_ws (l : Str) (h : ∀ c ∈ l, isPySpace c = true) :
    pyStrip l = [] := by
  unfold pyStrip
  rw [List.dropWhile_eq_nil_iff.mpr h]
  rfl

theorem pyStrip_ne_nil_of_head (c : Char) (t : Str) (hc : isPySpace c = false) :
    pyStrip (c :: t) ≠ [] := by
  unfold pyStrip
  rw [List.dropWhile_cons, if_neg (by simp [hc])]
  intro hcontra
  rw [List.reverse_eq_nil_iff, List.dropWhile_eq_nil_iff] at hcontra
  have := hcontra c (by simp)
  rw [hc] at this
  exact absurd this (by simp)

theorem parseLines_lineOf (kvs : List (Str × Str))
    (h : ∀ kv ∈ kvs, goodKey kv.1 = true) :
    parseLines (kvs.map lineOf) = some kvs := by
  induction kvs with
  | nil => rfl
  | cons kv rest ih =>
    obtain ⟨_, hcol, _, c, t, hct, hc, hch⟩ :=
      goodKey_props kv.1 (h kv (List.mem_cons_self kv rest))
    rw [List.map_cons]
    unfold parseLines
    have hguard : ¬ (pyStrip (lineOf kv) = [] ∨ List.take 1 (lineOf kv) = ['#']) := by
      rw [lineOf, hct, List.cons_append]
      rintro (h1 | h2)
      · exact pyStrip_ne_nil_of_head c _ hc h1
      · have he1 : List.take 1 (c :: (t ++ ':' :: ' ' :: dumpVal kv.2)) = [c] := rfl
        rw [he1] at h2
        exact hch (by simpa using h2)
    rw [if_neg hguard]
    have hsc : splitColon (lineOf kv) = some (kv.1, dumpVal kv.2) := by
      rw [lineOf]
      exact splitColon_key kv.1 (dumpVal kv.2) hcol
    simp only [hsc, parseVal_dumpVal,
      ih (fun kv2 h2 => h kv2 (List.mem_cons_of_mem kv h2))]

/-! ### Round-trip development: matcher lemmas -/

theorem take_wsRunLen (t : Str) : t.take (wsRunLen t) = t.takeWhile isPySpace := by
  unfold wsRunLen
  induction t with
  | nil => rfl
  | cons c u ih =>
    rw [List.takeWhile_cons]
    by_cases hc : isPySpace c = true
    · rw [if_pos hc, List.length_cons, List.take_succ_cons, ih]
    · rw [if_neg hc, List.length_nil, List.take_zero]

theorem drop_wsRunLen (t : Str) : t.drop (wsRunLen t) = t.dropWhile isPySpace := by
  unfold wsRunLen
  induction t with
  | nil => rfl
  | cons c u ih =>
    rw [List.dropWhile_cons]
    by_cases hc : isPySpace c = true
    · rw [if_pos hc, show (List.takeWhile isPySpace (c :: u)).length =
        (List.takeWhile isPySpace u).length + 1 from by
          rw [List.takeWhile_cons, if_pos hc, List.length_cons],
        List.drop_succ_cons, ih]
    · rw [if_neg hc, show (List.takeWhile isPySpace (c :: u)).length = 0 from by
        rw [List.takeWhile_cons, if_neg hc, List.length_nil], List.drop_zero]

theorem findClose_no_nl (l rest : Str) (h : ¬ '\n' ∈ l) :
    findClose (l ++ rest) = (findClose rest).map (fun p => (l ++ p.1, p.2)) := by
  induction l with
  | nil =>
    rw [List.nil_append]
    cases findClose rest with
    | none => rfl
    | some p => rfl
  | cons c u ih =>
    have hc : ¬ c = '\n' := fun hh => h (hh ▸ List.mem_cons_self c u)
    have hu : ¬ '\n' ∈ u := fun hh => h (List.mem_cons_of_mem c hh)
    rw [List.cons_append]
    show (match (if c = '\n' ∧ (u ++ rest).take 3 = ['-', '-', '-'] then
        tail2 ((u ++ rest).drop 3) else none) with
      | some g2 => some (([] : Str), g2)
      | none => (findClose (u ++ rest)).map (fun p => (c :: p.1, p.2))) =
      (findClose rest).map (fun p => ((c :: u) ++ p.1, p.2))
    rw [if_neg (fun hh => hc hh.1), ih hu]
    cases findClose rest with
    | none => rfl
    | some p => simp

theorem lastNlIdx_nl_mem (l : Str) (h : '\n' ∈ l) : lastNlIdx l ≠ none := by
  induction l with
  | nil => simp at h
  | cons c u ih =>
    unfold lastNlIdx
    cases hu : lastNlIdx u with
    | some k => simp
    | none =>
      rcases List.mem_cons.mp h with he | hm
      · rw [if_pos he.symm]
        simp
      · exact absurd hu (ih hm)

theorem lastNlIdx_lt_length (l : Str) : ∀ j, lastNlIdx l = some j → j < l.length := by
  induction l with
  | nil => intro j h; simp [lastNlIdx] at h
  | cons c u ih =>
    intro j h
    unfold lastNlIdx at h
    cases hu : lastNlIdx u with
    | some k =>
      rw [hu] at h
      injection h with h2
      rw [List.length_cons]
      have := ih k hu
      omega
    | none =>
      rw [hu] at h
      by_cases hc : c = '\n'
      · rw [if_pos hc] at h
        injection h with h2
        rw [List.length_cons]
        omega
      · rw [if_neg hc] at h
        exact absurd h (by simp)

theorem tail2_cons_nl (t : Str) : ∃ g2, tail2 ('\n' :: t) = some g2 := by
  unfold tail2
  by_cases hd : ('\n' :: t).drop (wsRunLen ('\n' :: t)) = []
  · rw [if_pos hd]
    exact ⟨none, rfl⟩
  · rw [if_neg hd]
    have hws : isPySpace '\n' = true := by decide
    have hmem : '\n' ∈ ('\n' :: t).take (wsRunLen ('\n' :: t)) := by
      rw [take_wsRunLen, List.takeWhile_cons, if_pos hws]
      exact List.mem_cons_self _ _
    cases hl : lastNlIdx (('\n' :: t).take (wsRunLen ('\n' :: t))) with
    | some j => exact ⟨some (('\n' :: t).drop (j + 1)), rfl⟩
    | none => exact absurd hl (lastNlIdx_nl_mem _ hmem)

theorem tail2_strip (t : Str) (g2 : Option Str) (h : tail2 t = some g2) :
    pyStrip (g2.getD []) = pyStrip t := by
  unfold tail2 at h
  by_cases hd : t.drop (wsRunLen t) = []
  · rw [if_pos hd] at h
    injection h with h2
    have hall : ∀ c ∈ t, isPySpace c = true := by
      rw [drop_wsRunLen] at hd
      intro c hc
      have e := List.takeWhile_append_dropWhile isPySpace t
      rw [hd, List.append_nil] at e
      rw [← e] at hc
      exact List.mem_takeWhile_imp hc
    rw [← h2]
    show pyStrip [] = pyStrip t
    rw [pyStrip_all_ws t hall]
    rfl
  · rw [if_neg hd] at h
    cases hl : lastNlIdx (t.take (wsRunLen t)) with
    | none =>
      rw [hl] at h
      exact absurd h (by simp)
    | some j =>
      rw [hl] at h
      injection h with h2
      have hj : j < (t.take (wsRunLen t)).length := lastNlIdx_lt_length _ j hl
      have hle : j + 1 ≤ wsRunLen t := by
        rw [List.length_take] at hj
        omega
      have hws : ∀ c ∈ t.take (j + 1), isPySpace c = true := by
        intro c hc
        have e2 : t.take (j + 1) = (t.take (wsRunLen t)).take (j + 1) := by
          rw [List.take_take, min_eq_left hle]
        rw [e2, take_wsRunLen] at hc
        exact List.mem_takeWhile_imp (List.mem_of_mem_take hc)
      rw [← h2]
      calc pyStrip ((some (t.drop (j + 1))).getD [])
          = pyStrip (t.drop (j + 1)) := rfl
        _ = pyStrip (t.take (j + 1) ++ t.drop (j + 1)) := (pyStrip_ws_append _ _ hws).symm
        _ = pyStrip t := by rw [List.take_append_drop]

theorem findClose_cons_nl_dash (T : Str) (g2 : Option Str) (ht : tail2 T = some g2) :
    findClose ('\n' :: '-' :: '-' :: '-' :: T) = some ([], g2) := by
  show (match (if '\n' = '\n' ∧ ('-' :: '-' :: '-' :: T).take 3 = ['-', '-', '-'] then
      tail2 (('-' :: '-' :: '-' :: T).drop 3) else none) with
    | some g => some (([] : Str), g)
    | none => (findClose ('-' :: '-' :: '-' :: T)).map (fun p => ('\n' :: p.1, p.2))) =
    some ([], g2)
  rw [if_pos ⟨rfl, rfl⟩]
  rw [show ('-' :: '-' :: '-' :: T).drop 3 = T from rfl, ht]

theorem findClose_cons_nl_no_dash (c2 : Char) (w : Str) (hc2 : ¬ c2 = '-') :
    findClose ('\n' :: c2 :: w) = (findClose (c2 :: w)).map (fun p => ('\n' :: p.1, p.2)) := by
  have hcond : ¬ ('\n' = '\n' ∧ (c2 :: w).take 3 = ['-', '-', '-']) := by
    rintro ⟨-, h2⟩
    rw [List.take_succ_cons] at h2
    exact hc2 (List.cons.inj h2).1
  show (match (if '\n' = '\n' ∧ (c2 :: w).take 3 = ['-', '-', '-'] then
      tail2 ((c2 :: w).drop 3) else none) with
    | some g => some (([] : Str), g)
    | none => (findClose (c2 :: w)).map (fun p => ('\n' :: p.1, p.2))) =
    (findClose (c2 :: w)).map (fun p => ('\n' :: p.1, p.2))
  rw [if_neg hcond]

theorem afterDashes_nonws (c : Char) (t : Str) (hc : isPySpace c = false) :
    afterDashes ('\n' :: c :: t) = findClose (c :: t) := by
  have hws : isPySpace '\n' = true := by decide
  have h1 : wsRunLen ('\n' :: c :: t) = 1 := by
    unfold wsRunLen
    rw [List.takeWhile_cons, if_pos hws, List.takeWhile_cons, if_neg (by simp [hc])]
    rfl
  unfold afterDashes
  rw [h1]
  rw [show ('\n' :: c :: t).take 1 = ['\n'] from rfl]
  rw [show nlPosDesc ['\n'] = [0] from by decide]
  unfold tryOpen
  rw [show ('\n' :: c :: t).drop (0 + 1) = c :: t from rfl]
  cases hfc : findClose (c :: t) with
  | some p => rfl
  | none => rfl

theorem findClose_lines (lns : List Str) (T : Str) (g2 : Option Str)
    (ht : tail2 T = some g2) :
    ∀ (_ : ∀ l ∈ lns, l ≠ [] ∧ l.head? ≠ some '-' ∧ ¬ '\n' ∈ l) (_ : lns ≠ []),
    findClose ((lns.map (fun l => l ++ ['\n'])).flatten ++ '-' :: '-' :: '-' :: T) =
      some (joinNl lns, g2) := by
  induction lns with
  | nil => intro _ h; exact absurd rfl h
  | cons l rest ih =>
    intro hl _
    obtain ⟨hlne, hlh, hlnl⟩ := hl l (List.mem_cons_self l rest)
    cases rest with
    | nil =>
      have e1 : (([l].map (fun l => l ++ ['\n'])).flatten ++ '-' :: '-' :: '-' :: T) =
          l ++ ('\n' :: '-' :: '-' :: '-' :: T) := by simp
      rw [e1, findClose_no_nl l _ hlnl, findClose_cons_nl_dash T g2 ht]
      simp [joinNl]
    | cons l2 rest2 =>
      obtain ⟨hl2ne, hl2h, hl2nl⟩ := hl l2 (by simp)
      obtain ⟨c2, u2, he⟩ : ∃ c2 u2, l2 = c2 :: u2 := by
        cases l2 with
        | nil => exact absurd rfl hl2ne
        | cons a b => exact ⟨a, b, rfl⟩
      subst he
      have hc2 : ¬ c2 = '-' := by
        intro hh
        rw [hh] at hl2h
        exact hl2h rfl
      have e1 : (((l :: (c2 :: u2) :: rest2).map (fun l => l ++ ['\n'])).flatten ++
          '-' :: '-' :: '-' :: T) =
          l ++ ('\n' :: c2 :: (u2 ++ ['\n'] ++
            ((rest2.map (fun l => l ++ ['\n'])).flatten ++ '-' :: '-' :: '-' :: T))) := by
        simp [List.append_assoc]
      have e2 : ((((c2 :: u2) :: rest2).map (fun l => l ++ ['\n'])).flatten ++
          '-' :: '-' :: '-' :: T) =
          c2 :: (u2 ++ ['\n'] ++
            ((rest2.map (fun l => l ++ ['\n'])).flatten ++ '-' :: '-' :: '-' :: T)) := by
        simp [List.append_assoc]
      rw [e1, findClose_no_nl l _ hlnl, findClose_cons_nl_no_dash c2 _ hc2, ← e2,
        ih (fun x hx => hl x (List.mem_cons_of_mem l hx)) (by simp)]
      simp [joinNl]

theorem yamlLoad_lines (kvs : List (Str × Str)) (hne : kvs ≠ [])
    (hk : ∀ kv ∈ kvs, goodKey kv.1 = true) :
    yamlLoad (joinNl (kvs.map lineOf)) = some (YamlDoc.mapping kvs) := by
  obtain ⟨kv1, rest, rfl⟩ : ∃ kv1 rest, kvs = kv1 :: rest := by
    cases kvs with
    | nil => exact absurd rfl hne
    | cons a b => exact ⟨a, b, rfl⟩
  obtain ⟨c1, k1, hk1, hc1, _⟩ := (goodKey_props kv1.1 (hk kv1 (by simp))).2.2.2
  have hnonl : ∀ l ∈ (kv1 :: rest).map lineOf, ¬ '\n' ∈ l := by
    intro l hlm
    obtain ⟨kv, hkv, rfl⟩ := List.mem_map.mp hlm
    intro hmem
    rw [lineOf] at hmem
    rcases List.mem_append.mp hmem with hmk | hmr
    · exact ((goodKey_props kv.1 (hk kv hkv)).1 '\n' hmk) rfl
    · rcases List.mem_cons.mp hmr with he | hmr2
      · exact absurd he.symm (by decide)
      · rcases List.mem_cons.mp hmr2 with he | hmv
        · exact absurd he.symm (by decide)
        · exact dumpVal_no_nl kv.2 hmv
  have hhead : ∃ tl, joinNl ((kv1 :: rest).map lineOf) = c1 :: tl := by
    cases rest with
    | nil =>
      refine ⟨k1 ++ ':' :: ' ' :: dumpVal kv1.2, ?_⟩
      show lineOf kv1 = c1 :: (k1 ++ ':' :: ' ' :: dumpVal kv1.2)
      rw [lineOf, hk1]
      rfl
    | cons kv2 rest2 =>
      refine ⟨k1 ++ ':' :: ' ' :: dumpVal kv1.2 ++
        '\n' :: joinNl ((kv2 :: rest2).map lineOf), ?_⟩
      show lineOf kv1 ++ '\n' :: joinNl ((kv2 :: rest2).map lineOf) = _
      rw [lineOf, hk1]
      simp
  obtain ⟨tl, htl⟩ := hhead
  have hcs : hasColonSpace (lineOf kv1) = true := by
    rw [lineOf]
    exact hasColonSpace_append kv1.1 (dumpVal kv1.2)
  unfold yamlLoad
  rw [htl, if_neg (pyStrip_ne_nil_of_head c1 tl hc1), ← htl,
    splitNl_joinNl _ (by simp) hnonl]
  have hall : ((kv1 :: rest).map lineOf).all (fun l => !(hasColonSpace l)) = false := by
    rw [List.map_cons, List.all_cons, hcs]
    rfl
  rw [if_neg (fun hcontra => Bool.false_ne_true (hall ▸ hcontra)),
    parseLines_lineOf (kv1 :: rest) hk]
  rfl

/-- Parsing the generated structured-text output recovers exactly the dumped
metadata pairs and the stripped body, for well-behaved keys; values are
arbitrary, since the serializer quotes and escapes the ones that would
otherwise break the line or mapping structure. -/
theorem parse_gen (kvs : List (Str × Str)) (body : Str)
    (hk : ∀ kv ∈ kvs, goodKey kv.1 = true)
    (hne : kvs ≠ []) :
    parse_yaml_frontmatter (S "---\n" ++ yamlDump kvs ++ S "---\n\n" ++ body) =
      (kvs, pyStrip body) := by
  obtain ⟨kv1, rest, rfl⟩ : ∃ kv1 rest, kvs = kv1 :: rest := by
    cases kvs with
    | nil => exact absurd rfl hne
    | cons a b => exact ⟨a, b, rfl⟩
  obtain ⟨c1, k1, hk1, hc1, _⟩ := (goodKey_props kv1.1 (hk kv1 (by simp))).2.2.2
  obtain ⟨g2, hg2⟩ := tail2_cons_nl ('\n' :: body)
  have hstrip : pyStrip (g2.getD []) = pyStrip body := by
    have h1 := tail2_strip ('\n' :: '\n' :: body) g2 hg2
    rw [h1]
    exact pyStrip_ws_append ['\n', '\n'] body (by decide)
  have hlns : ∀ l ∈ (kv1 :: rest).map lineOf,
      l ≠ [] ∧ l.head? ≠ some '-' ∧ ¬ '\n' ∈ l := by
    intro l hlm
    obtain ⟨kv, hkv, rfl⟩ := List.mem_map.mp hlm
    obtain ⟨hnl, _, hhd, c, t, hct, _, _⟩ := goodKey_props kv.1 (hk kv hkv)
    refine ⟨?_, ?_, ?_⟩
    · rw [lineOf, hct]
      simp
    · rw [lineOf, hct]
      rw [hct] at hhd
      simpa using hhd
    · intro hmem
      rw [lineOf] at hmem
      rcases List.mem_append.mp hmem with hmk | hmr
      · exact (hnl '\n' hmk) rfl
      · rcases List.mem_cons.mp hmr with he | hmr2
        · exact absurd he.symm (by decide)
        · rcases List.mem_cons.mp hmr2 with he | hmv
          · exact absurd he.symm (by decide)
          · exact dumpVal_no_nl kv.2 hmv
  have hfcl := findClose_lines ((kv1 :: rest).map lineOf) ('\n' :: '\n' :: body) g2 hg2
    hlns (by simp)
  have hgen : S "---\n" ++ yamlDump (kv1 :: rest) ++ S "---\n\n" ++ body =
      '-' :: '-' :: '-' :: '\n' ::
        ((((kv1 :: rest).map lineOf).map (fun l => l ++ ['\n'])).flatten ++
          '-' :: '-' :: '-' :: '\n' :: '\n' :: body) := by
    have hmaps : (kv1 :: rest).map (fun kv => kv.1 ++ ':' :: ' ' :: dumpVal kv.2 ++ ['\n']) =
        ((kv1 :: rest).map lineOf).map (fun l => l ++ ['\n']) := by
      rw [List.map_map]
      apply List.map_congr_left
      intro kv _
      simp [lineOf, Function.comp, List.append_assoc]
    rw [show S "---\n" = ['-', '-', '-', '\n'] from rfl,
      show S "---\n\n" = ['-', '-', '-', '\n', '\n'] from rfl, yamlDump, hmaps]
    simp [List.append_assoc]
  have hZ : ((((kv1 :: rest).map lineOf).map (fun l => l ++ ['\n'])).flatten ++
      '-' :: '-' :: '-' :: '\n' :: '\n' :: body) =
      c1 :: ((k1 ++ ':' :: ' ' :: dumpVal kv1.2 ++ ['\n']) ++
        (((rest.map lineOf).map (fun l => l ++ ['\n'])).flatten ++
          '-' :: '-' :: '-' :: '\n' :: '\n' :: body)) := by
    simp [lineOf, hk1, List.append_assoc]
  have hpfm : parseFM ('-' :: '-' :: '-' :: '\n' ::
      ((((kv1 :: rest).map lineOf).map (fun l => l ++ ['\n'])).flatten ++
        '-' :: '-' :: '-' :: '\n' :: '\n' :: body)) =
      some (joinNl ((kv1 :: rest).map lineOf), pyStrip body) := by
    show (afterDashes ('\n' ::
        ((((kv1 :: rest).map lineOf).map (fun l => l ++ ['\n'])).flatten ++
          '-' :: '-' :: '-' :: '\n' :: '\n' :: body))).map
        (fun p => (p.1, pyStrip (p.2.getD []))) =
      some (joinNl ((kv1 :: rest).map lineOf), pyStrip body)
    rw [hZ, afterDashes_nonws c1 _ hc1, ← hZ, hfcl]
    simp [hstrip]
  rw [hgen]
  unfold parse_yaml_frontmatter
  simp only [hpfm, yamlLoad_lines (kv1 :: rest) (by simp) hk]

theorem findA_filterMap_not_mem (sk : Skill) (fs : List Str) (f : Str) (hf : ¬ f ∈ fs) :
    findA (fs.filterMap (fun g => (findA sk g).map (fun v => (g, v)))) f = none := by
  induction fs with
  | nil => rfl
  | cons g fs2 ih =>
    have hfg : ¬ g = f := fun hh => hf (hh ▸ List.mem_cons_self g fs2)
    have hf2 : ¬ f ∈ fs2 := fun hh => hf (List.mem_cons_of_mem g hh)
    rw [List.filterMap_cons]
    cases hg : findA sk g with
    | none => exact ih hf2
    | some v => simp [findA, hfg, ih hf2]

theorem findA_filterMap_mem (sk : Skill) (fs : List Str) (hnd : fs.Nodup) :
    ∀ f ∈ fs, findA (fs.filterMap (fun g => (findA sk g).map (fun v => (g, v)))) f =
      findA sk f := by
  induction fs with
  | nil => intro f hf; simp at hf
  | cons g fs2 ih =>
    intro f hf
    rw [List.nodup_cons] at hnd
    rw [List.filterMap_cons]
    rcases List.mem_cons.mp hf with he | hf2
    · subst he
      cases hg : findA sk f with
      | none => exact findA_filterMap_not_mem sk fs2 f hnd.1
      | some v => simp [findA]
    · have hfg : ¬ g = f := by
        intro hh
        exact hnd.1 (hh ▸ hf2)
      cases hg : findA sk g with
      | none => exact ih hnd.2 f hf2
      | some v => simp [findA, hfg, ih hnd.2 f hf2]

/-- Concrete record refuting C3 as stated: instructions carrying a trailing
newline do not survive the round trip because the parser strips the body. -/
theorem c3_counterexample :
    findA [(S "name", S "a"), (S "description", S "d"), (S "instructions", S "hi\n")]
      (S "instructions") = some (S "hi\n") ∧
    (parse_yaml_frontmatter (generate_skill_md
      [(S "name", S "a"), (S "description", S "d"), (S "instructions", S "hi\n")])).2 =
      S "hi" ∧
    ¬ (S "hi" = S "hi\n") := by decide

/-- C3 (amended): parsing the generated output yields metadata equal to the
generated block — containing `name`, `description`, and exactly the
recognized optional attributes present on the record, with equal values, and
nothing else — and a body equal to the record's `instructions` stripped of
leading and trailing whitespace (equality on the nose fails when
`instructions` carries outer whitespace).  Values are arbitrary strings:
the serializer quotes and escapes newline-, quote- and colon-bearing
values, and parsing inverts the quoting. -/
theorem c3_amended_roundtrip (sk : Skill) (nv dv : Str)
    (hn : findA sk (S "name") = some nv)
    (hd : findA sk (S "description") = some dv)
    (_hkeys : ∀ kv ∈ sk, kv.1 ∈ S "name" :: S "description" :: S "instructions" ::
      S "content" :: optionalFields) :
    parse_yaml_frontmatter (generate_skill_md sk) = (genMeta sk, pyStrip (genBody sk)) ∧
    findA (genMeta sk) (S "name") = some nv ∧
    findA (genMeta sk) (S "description") = some dv ∧
    (∀ f ∈ optionalFields, findA (genMeta sk) f = findA sk f) ∧
    (∀ k2, ¬ k2 ∈ S "name" :: S "description" :: optionalFields →
      findA (genMeta sk) k2 = none) ∧
    (∀ iv, findA sk (S "instructions") = some iv → iv ≠ [] →
      (parse_yaml_frontmatter (generate_skill_md sk)).2 = pyStrip iv) := by
  have hgood : ∀ g ∈ S "name" :: S "description" :: optionalFields, goodKey g = true := by
    decide
  have hcond1 : ∀ kv ∈ genMeta sk, goodKey kv.1 = true := by
    intro kv hkv
    rw [genMeta] at hkv
    rcases List.mem_cons.mp hkv with he | hkv2
    · rw [he]
      exact hgood (S "name") (by simp)
    · rcases List.mem_cons.mp hkv2 with he | hkv3
      · rw [he]
        exact hgood (S "description") (by simp)
      · obtain ⟨g, hg, hval⟩ := List.mem_filterMap.mp hkv3
        cases hfg : findA sk g with
        | none => rw [hfg] at hval; simp at hval
        | some v =>
          rw [hfg] at hval
          simp only [Option.map_some'] at hval
          injection hval with hval2
          rw [← hval2]
          exact hgood g (by simp [hg])
  have hmain : parse_yaml_frontmatter (generate_skill_md sk) =
      (genMeta sk, pyStrip (genBody sk)) := by
    rw [generate_skill_md]
    exact parse_gen (genMeta sk) (genBody sk) hcond1 (by rw [genMeta]; simp)
  have hnophm : ∀ f ∈ optionalFields, ¬ f = S "name" ∧ ¬ f = S "description" := by decide
  refine ⟨hmain, ?_, ?_, ?_, ?_, ?_⟩
  · rw [genMeta, findA, if_pos rfl, getA, hn, Option.getD_some]
  · rw [genMeta, findA, if_neg (by decide), findA, if_pos rfl, getA, hd, Option.getD_some]
  · intro f hf
    obtain ⟨hf1, hf2⟩ := hnophm f hf
    rw [genMeta, findA, if_neg (fun hh => hf1 hh.symm), findA,
      if_neg (fun hh => hf2 hh.symm)]
    exact findA_filterMap_mem sk optionalFields (by decide) f hf
  · intro k2 hk2
    have hk2n : ¬ k2 = S "name" := fun hh => hk2 (hh ▸ List.mem_cons_self _ _)
    have hk2d : ¬ k2 = S "description" := fun hh => hk2 (by rw [hh]; simp)
    have hk2o : ¬ k2 ∈ optionalFields := fun hh => hk2 (by simp [hh])
    rw [genMeta, findA, if_neg (fun hh => hk2n hh.symm), findA,
      if_neg (fun hh => hk2d hh.symm)]
    exact findA_filterMap_not_mem sk optionalFields k2 hk2o
  · intro iv hiv hivne
    have hb : genBody sk = iv := by
      rw [genBody, getA, hiv, Option.getD_some]
      rw [if_neg (fun hh => hivne hh.1)]
    rw [hmain, hb]

/-- Concrete record for the C3 witness: recognized attributes only, with an
optional `author`, a description whose value needs quoting (it contains a
newline and an inner `: `), and two-line instructions. -/
def exSkillC3 : Skill :=
  [(S "name", S "my-skill"), (S "description", S "does: a\nthing"),
   (S "author", S "ann"), (S "instructions", S "Line one.\nLine two.")]

/-- Witness for the amended C3 at `exSkillC3`. -/
theorem c3_amended_roundtrip_witness :
    parse_yaml_frontmatter (generate_skill_md exSkillC3) =
      (genMeta exSkillC3, pyStrip (genBody exSkillC3)) ∧
    findA (genMeta exSkillC3) (S "name") = some (S "my-skill") ∧
    findA (genMeta exSkillC3) (S "description") = some (S "does: a\nthing") ∧
    findA (genMeta exSkillC3) (S "author") = findA exSkillC3 (S "author") ∧
    findA (genMeta exSkillC3) (S "junk") = none ∧
    (parse_yaml_frontmatter (generate_skill_md exSkillC3)).2 =
      pyStrip (S "Line one.\nLine two.") := by
  have h := c3_amended_roundtrip exSkillC3 (S "my-skill") (S "does: a\nthing") (by decide)
    (by decide) (by decide)
  exact ⟨h.1, h.2.1, h.2.2.1, h.2.2.2.1 (S "author") (by decide),
    h.2.2.2.2.1 (S "junk") (by decide),
    h.2.2.2.2.2 (S "Line one.\nLine two.") (by decide) (by decide)⟩
